import Mathlib

/-!
Verification of the pg-compose schema-diff and migration-ordering engine.

The definitions in this file are a shallow embedding of the Python sources:
  * `pg_compose_core/lib/ast_objects.py`  (SQL normalization, content hash,
    `BuildStage`, `ASTObject`) — the sibling module `pg_compose_core/lib/ast/objects.py`
    imported by `diff.py` is the same data model; the `procedure` stage used by
    `diff.py` and listed in the spec's `queryType` enumeration is included.
  * `pg_compose_core/lib/ast/function.py`  (function parameters, signature hash)
  * `pg_compose_core/lib/ast/table.py`    (table columns, column diff)
  * `pg_compose_core/lib/diff.py`         (diff engine)
  * `pg_compose_core/lib/sorter.py`       (dependency sorter)

Strings are modelled exactly as Python strings of characters; Python string
truthiness (`if s:`) is modelled as `s ≠ ""`, and fields that Python holds as
`None` default to `""` / `[]` in the same way the code's truthiness tests treat
them.  SHA-256 digests are compared only for equality in the code; the digest
function is modelled as the identity on the hashed text (the canonical
injective stand-in for a collision-free hash), so digest equality coincides
with equality of the hashed text.
-/

set_option maxHeartbeats 1000000

namespace PgCompose

/-! ## Characters -/

/-- Python's `\s` (ASCII range), used by `re.sub(r'\s+', ' ', ...)` and friends. -/
def isWsChar (c : Char) : Bool :=
  c == ' ' || c == '\t' || c == '\n' || c == '\r' || c == '\x0b' || c == '\x0c'

/-- The delimiter class `[,()]` of `re.sub(r'\s*([,()])\s*', r'\1', ...)`. -/
def isDelimChar (c : Char) : Bool :=
  c == ',' || c == '(' || c == ')'

/-- ASCII fragment of Python's `str.upper` applied character-wise. -/
def upChar (c : Char) : Char :=
  if 97 ≤ c.toNat ∧ c.toNat ≤ 122 then Char.ofNat (c.toNat - 32) else c

/-- ASCII fragment of Python's `str.lower` applied character-wise. -/
def lowChar (c : Char) : Char :=
  if 65 ≤ c.toNat ∧ c.toNat ≤ 90 then Char.ofNat (c.toNat + 32) else c

/-! ## SQL normalization (`ASTObject._normalize_sql`)

The five passes of `_normalize_sql`, in source order:
`re.sub(r'--.*$', '', sql, flags=re.MULTILINE)`,
`re.sub(r'/\*.*?\*/', '', sql, flags=re.DOTALL)`,
`re.sub(r'\s+', ' ', sql)`, `re.sub(r'\s*([,()])\s*', r'\1', sql)`,
`.strip()`, `.upper()`. -/

/-- Pass 1, `--` line comments: from each `--` everything up to (not including)
the next newline is removed.  The `Bool` state tracks being inside a comment. -/
def stripLineAux : Bool → List Char → List Char
  | _, [] => []
  | true, '\n' :: cs => '\n' :: stripLineAux false cs
  | true, _ :: cs => stripLineAux true cs
  | false, '-' :: '-' :: cs => stripLineAux true cs
  | false, c :: cs => c :: stripLineAux false cs

def stripLineComments (l : List Char) : List Char := stripLineAux false l

/-- Pass 2, `/* ... */` block comments, non-greedy: a `/*` is removed together
with everything up to the first following `*/`; a `/*` with no later `*/`
matches nothing (and then nothing after it can match either, since any later
match would also need a `*/`).  The `Option` state buffers the characters seen
since an open `/*` (in reverse) so that an unclosed comment is emitted
verbatim. -/
def stripBlockAux : Option (List Char) → List Char → List Char
  | none, [] => []
  | none, '/' :: '*' :: cs => stripBlockAux (some []) cs
  | none, c :: cs => c :: stripBlockAux none cs
  | some buf, [] => '/' :: '*' :: buf.reverse
  | some _, '*' :: '/' :: cs => stripBlockAux none cs
  | some buf, c :: cs => stripBlockAux (some (c :: buf)) cs

def stripBlockComments (l : List Char) : List Char := stripBlockAux none l

/-- Pass 3: every maximal whitespace run becomes a single `' '`. -/
def collapseWs : List Char → List Char
  | [] => []
  | [c] => if isWsChar c then [' '] else [c]
  | c :: d :: cs =>
    if isWsChar c && isWsChar d then collapseWs (d :: cs)
    else (if isWsChar c then ' ' else c) :: collapseWs (d :: cs)

/-- Pass 4: whitespace runs touching a `,`, `(` or `)` on either side are
removed.  `afterDelim` records that the run being buffered follows a delimiter;
`buf` holds the pending run in reverse. -/
def squeezeAux : Bool → List Char → List Char → List Char
  | afterDelim, buf, [] => if afterDelim then [] else buf.reverse
  | afterDelim, buf, c :: cs =>
    if isWsChar c then squeezeAux afterDelim (c :: buf) cs
    else if isDelimChar c then c :: squeezeAux true [] cs
    else if afterDelim then c :: squeezeAux false [] cs
    else buf.reverse ++ c :: squeezeAux false [] cs

def squeezeDelims (l : List Char) : List Char := squeezeAux false [] l

/-- Pass 5, `str.strip()`. -/
def trimWs (l : List Char) : List Char :=
  ((l.dropWhile isWsChar).reverse.dropWhile isWsChar).reverse

def normalizeChars (l : List Char) : List Char :=
  (trimWs (squeezeDelims (collapseWs (stripBlockComments (stripLineComments l))))).map upChar

/-- `ASTObject._normalize_sql`. -/
def normalizeSql (s : String) : String := ⟨normalizeChars s.data⟩

/-- `hashlib.sha256(...).hexdigest()`: a fixed function of its input, compared
only for equality by the engine.  Modelled as the identity on the hashed text,
the canonical injective choice (see the module comment). -/
def sha256Hex (s : String) : String := s

/-- `ASTObject._generate_hash`. -/
def generateHash (command : String) : String := sha256Hex (normalizeSql command)

/-- Python `str.upper` (ASCII fragment). -/
def strUpper (s : String) : String := ⟨s.data.map upChar⟩

/-- Python `str.lower` (ASCII fragment). -/
def strLower (s : String) : String := ⟨s.data.map lowChar⟩

/-! ## Object model (`BuildStage`, `ASTObject`, table and function detail) -/

inductive BuildStage where
  | extension | schema | enum | domain | composite_type | base_table
  | sequence | dependent_table | index | constraint | view
  | materialized_view | function | procedure | trigger | policy
  | grant | unknown
  deriving DecidableEq

/-- The `.value` string of each `BuildStage` enum member. -/
def BuildStage.value : BuildStage → String
  | .extension => "extension"
  | .schema => "schema"
  | .enum => "enum"
  | .domain => "domain"
  | .composite_type => "composite_type"
  | .base_table => "base_table"
  | .sequence => "sequence"
  | .dependent_table => "dependent_table"
  | .index => "index"
  | .constraint => "constraint"
  | .view => "view"
  | .materialized_view => "materialized_view"
  | .function => "function"
  | .procedure => "procedure"
  | .trigger => "trigger"
  | .policy => "policy"
  | .grant => "grant"
  | .unknown => "unknown"

inductive ResourceType where
  | table | view | function | sequence | schema | database | unknown
  deriving DecidableEq

/-- `TableColumn` (`ast/table.py`). -/
structure TableColumn where
  name : String
  data_type : String
  is_nullable : Bool := true
  default : String := ""
  deriving DecidableEq

/-- `TableConstraint` (`ast/table.py`); `details` is not consulted anywhere in
the diff engine and is omitted. -/
structure TableConstraint where
  name : String
  constraint_type : String
  columns : List String := []
  deriving DecidableEq

/-- `FunctionParameter` (`ast/function.py`).  `mode`/`default_value` are `None`
when absent; `""` models `None` (only truthiness tests are applied to them). -/
structure FunctionParameter where
  name : String
  data_type : String
  mode : String := ""
  default_value : String := ""
  deriving DecidableEq

/-- The extra payload of the `ASTObject` subclasses: `TableASTObject` carries
columns and constraints, `FunctionASTObject` carries parameters, return type,
language and the signature hash.  `isinstance` tests in the engine become
matches on this payload.  The remaining `FunctionASTObject` fields (volatility,
security, ...) are never read by the diff engine and are omitted. -/
inductive ObjDetail where
  | plain
  | table (columns : List TableColumn) (constraints : List TableConstraint)
  | func (parameters : List FunctionParameter) (return_type : String)
      (language : String) (signature_hash : String)
  deriving DecidableEq

/-- `ASTObject` (`ast_objects.py`).  `object_name`/`schema`/`query_hash` are
Python `Optional[str]`; the engine only ever tests them for truthiness, so
`None` is modelled by `""`. -/
structure ASTObject where
  command : String
  object_name : String := ""
  query_type : BuildStage := .unknown
  resource_type : ResourceType := .unknown
  dependencies : List String := []
  query_hash : String := ""
  schema : String := ""
  detail : ObjDetail := .plain
  deriving DecidableEq

/-- `ASTObject.qualified_name`: `schema.object_name` when a schema is present,
else `object_name or ""`. -/
def ASTObject.qualified_name (o : ASTObject) : String :=
  if o.schema ≠ "" ∧ o.object_name ≠ "" then o.schema ++ "." ++ o.object_name
  else o.object_name

/-- `FunctionASTObject._generate_signature_hash`: sha-256 of
`"|".join([mode? "mode " ++ name:type per parameter] ++ ["RETURNS ret"]? ++ ["LANGUAGE lang"]?)`. -/
def generateSignatureHash (parameters : List FunctionParameter)
    (return_type language : String) : String :=
  let paramParts := parameters.map fun p =>
    let base := p.name ++ ":" ++ p.data_type
    if p.mode ≠ "" then p.mode ++ " " ++ base else base
  let parts := paramParts
    ++ (if return_type ≠ "" then ["RETURNS " ++ return_type] else [])
    ++ (if language ≠ "" then ["LANGUAGE " ++ language] else [])
  sha256Hex (String.intercalate "|" parts)

/-- `ASTObject.__post_init__`: constructing an object without an explicit hash
computes `query_hash` from the command text. -/
def mkObj (command object_name : String) (query_type : BuildStage)
    (dependencies : List String) (schema : String)
    (detail : ObjDetail := .plain) : ASTObject :=
  { command := command, object_name := object_name, query_type := query_type,
    dependencies := dependencies, query_hash := generateHash command,
    schema := schema, detail := detail }

/-- `TableASTObject.__post_init__`: the query type is forced to `base_table`. -/
def mkTableObj (command object_name : String) (dependencies : List String)
    (schema : String) (columns : List TableColumn)
    (constraints : List TableConstraint := []) : ASTObject :=
  mkObj command object_name .base_table dependencies schema
    (.table columns constraints)

/-- `FunctionASTObject.__post_init__`: the query type is forced to `function`
and the signature hash is computed when not supplied. -/
def mkFuncObj (command object_name : String) (dependencies : List String)
    (schema : String) (parameters : List FunctionParameter)
    (return_type language : String) : ASTObject :=
  mkObj command object_name .function dependencies schema
    (.func parameters return_type language
      (generateSignatureHash parameters return_type language))

/-- `FunctionASTObject.signature_matches`. -/
def signatureMatches (a b : ASTObject) : Bool :=
  match a.detail, b.detail with
  | .func _ _ _ ha, .func _ _ _ hb => ha == hb
  | _, _ => false

/-- `TableASTObject.diff` (`ast/table.py`): `self` is the new version,
`source` the prior one.  Columns are keyed by name through dicts built in
column order; with duplicate column names the dict keeps the last entry, and
iteration order is first-insertion order. -/
def dictInsertG {α : Type} : List (String × α) → String → α → List (String × α)
  | [], k, v => [(k, v)]
  | (k', v') :: rest, k, v =>
    if k' = k then (k', v) :: rest else (k', v') :: dictInsertG rest k v

def dictGetG {α : Type} : List (String × α) → String → Option α
  | [], _ => none
  | (k', v) :: rest, k => if k' = k then some v else dictGetG rest k

def dictKeysG {α : Type} (m : List (String × α)) : List String := m.map (·.1)

def buildDict {α : Type} (l : List (String × α)) : List (String × α) :=
  l.foldl (fun m kv => dictInsertG m kv.1 kv.2) []

def tableDiff (newCols oldCols : List TableColumn) :
    List TableColumn × List TableColumn × List (TableColumn × TableColumn) :=
  let old_columns := buildDict (oldCols.map fun c => (c.name, c))
  let new_columns := buildDict (newCols.map fun c => (c.name, c))
  let added := (new_columns.filter fun kv => (dictGetG old_columns kv.1).isNone).map (·.2)
  let removed := (old_columns.filter fun kv => (dictGetG new_columns kv.1).isNone).map (·.2)
  let changed := old_columns.filterMap fun kv =>
    match dictGetG new_columns kv.1 with
    | none => none
    | some new_col =>
      let old_col := kv.2
      if old_col.data_type ≠ new_col.data_type ∨
          old_col.is_nullable ≠ new_col.is_nullable ∨
          old_col.default ≠ new_col.default then
        some (old_col, new_col)
      else none
  (added, removed, changed)

/-! ## Diff engine (`diff.py`) -/

/-- Uncaught Python exceptions escaping the diff (an out-of-range subscript in
the grant-name fallback raises `IndexError`). -/
inductive PyError where
  | indexError
  deriving DecidableEq

/-- Python `str.split(sep)` with a nonempty separator: scan left to right,
cutting at each non-overlapping occurrence of `sep` and keeping empty chunks.
The fuel (the input length) bounds the recursion; every step consumes at
least one character, so the fuel-exhaustion branch is unreachable. -/
def pySplitAux (sep : List Char) : Nat → List Char → List Char → List (List Char)
  | _, acc, [] => [acc.reverse]
  | 0, acc, rest => [acc.reverse ++ rest]
  | fuel + 1, acc, c :: cs =>
    if sep.isPrefixOf (c :: cs) ∧ sep ≠ [] then
      acc.reverse :: pySplitAux sep fuel [] ((c :: cs).drop sep.length)
    else pySplitAux sep fuel (c :: acc) cs

def pySplit (s sep : String) : List String :=
  (pySplitAux sep.data s.data.length [] s.data).map fun l => ⟨l⟩

/-- Substring membership (Python `sub in s`). -/
def listContainsSub (sub : List Char) : List Char → Bool
  | [] => decide (sub = [])
  | c :: cs => sub.isPrefixOf (c :: cs) || listContainsSub sub cs

def strContainsSub (s sub : String) : Bool := listContainsSub sub.data s.data

/-- Python `str.replace(pat, repl)` (all non-overlapping occurrences, left to
right), with the same fuel scheme as `pySplitAux`. -/
def pyReplaceAux (pat repl : List Char) : Nat → List Char → List Char
  | _, [] => []
  | 0, rest => rest
  | fuel + 1, c :: cs =>
    if pat.isPrefixOf (c :: cs) ∧ pat ≠ [] then
      repl ++ pyReplaceAux pat repl fuel ((c :: cs).drop pat.length)
    else c :: pyReplaceAux pat repl fuel cs

def pyReplace (s pat repl : String) : String :=
  ⟨pyReplaceAux pat.data repl.data s.data.length s.data⟩

/-- Python `s.split('.')[-1]`. -/
def lastComponent (s : String) : String := (pySplit s ".").getLastD s

/-- Modelled from the spec: `parse_sql_to_ast_objects` (`parser.py`) delegates
statement parsing to the external `pglast` library, which is outside this
repository.  Per §6, the parser contract returns one typed record per
top-level statement; per `_parse_grant_statement`, a grant or revoke on a
relation yields a single grant-typed record whose `object_name` and single
dependency are the lower-cased relation name and whose command is the
statement text.  The diff engine only ever calls this on the
`REVOKE <privs> ON <target> FROM <grantees>;` strings it builds itself, so the
model extracts the target between `" ON "` and `" FROM "`.  (`resource_type`
is left at its default; no consumer in the engine reads it.) -/
def parse_sql_to_ast_objects (sql : String) : List ASTObject :=
  match (pySplit sql " ON ")[1]? with
  | none => []
  | some rest =>
    let target := strLower ((pySplit rest " FROM ").headD rest)
    [mkObj sql target .grant [target] ""]

/-- The `ASTObject(...)` constructed at the end of `_generate_drop_command`:
`query_type=UNKNOWN`, dependencies and schema copied from the source object. -/
def dropResult (obj : ASTObject) (command : String) : ASTObject :=
  mkObj command obj.object_name .unknown obj.dependencies obj.schema

/-- The `GRANT` branch of `_generate_drop_command`: the object name is split on
`'_'`; names of the form `grant_<privs>_on_<target>_to_<grantees>` are decoded
and re-parsed as a `REVOKE`; all other paths fall through to the generic
fallback, whose `split('_on_')[1]` raises `IndexError` when the name contains
no `_on_`. -/
def generate_drop_grant (obj : ASTObject) : Except PyError (Option ASTObject) :=
  let grant_parts := pySplit obj.object_name "_"
  let happy : Option ASTObject :=
    if grant_parts.length ≥ 5 ∧ grant_parts.head? = some "grant" then
      match grant_parts.indexOf? "on", grant_parts.indexOf? "to" with
      | some on_index, some to_index =>
        if on_index < to_index then
          let object_name := String.intercalate "_"
            ((grant_parts.drop (on_index + 1)).take (to_index - (on_index + 1)))
          let privileges := (grant_parts.drop 1).take (on_index - 1)
          let grantees := grant_parts.drop (to_index + 1)
          let privilege_str :=
            if privileges ≠ [] then String.intercalate " " privileges else "ALL"
          let grantee_str :=
            if grantees ≠ [] then String.intercalate " " grantees else "PUBLIC"
          let revoke_sql := "REVOKE " ++ privilege_str ++ " ON " ++ object_name
            ++ " FROM " ++ grantee_str ++ ";"
          (parse_sql_to_ast_objects revoke_sql).head?
        else none
      | _, _ => none
    else none
  match happy with
  | some r => .ok (some r)
  | none =>
    match (pySplit (pyReplace obj.object_name "grant_" "") "_on_")[1]? with
    | none => .error .indexError
    | some after_on =>
      let target := (pySplit after_on "_to_").headD after_on
      .ok (parse_sql_to_ast_objects ("REVOKE ALL ON " ++ target ++ " FROM PUBLIC;")).head?

/-- `_generate_drop_command`. -/
def generate_drop_command (obj : ASTObject) : Except PyError (Option ASTObject) :=
  let object_name := obj.qualified_name
  match obj.query_type with
  | .base_table => .ok (some (dropResult obj ("DROP TABLE " ++ object_name ++ ";")))
  | .view => .ok (some (dropResult obj ("DROP VIEW " ++ object_name ++ ";")))
  | .materialized_view =>
    .ok (some (dropResult obj ("DROP MATERIALIZED VIEW " ++ object_name ++ ";")))
  | .function =>
    match obj.detail with
    | .func params _ _ _ =>
      if params ≠ [] then
        .ok (some (dropResult obj ("DROP FUNCTION " ++ object_name ++ "("
          ++ String.intercalate ", " (params.map (·.data_type)) ++ ");")))
      else .ok (some (dropResult obj ("DROP FUNCTION " ++ object_name ++ ";")))
    | _ => .ok (some (dropResult obj ("DROP FUNCTION " ++ object_name ++ ";")))
  | .procedure =>
    match obj.detail with
    | .func params _ _ _ =>
      if params ≠ [] then
        .ok (some (dropResult obj ("DROP PROCEDURE " ++ object_name ++ "("
          ++ String.intercalate ", " (params.map (·.data_type)) ++ ");")))
      else .ok (some (dropResult obj ("DROP PROCEDURE " ++ object_name ++ ";")))
    | _ => .ok (some (dropResult obj ("DROP PROCEDURE " ++ object_name ++ ";")))
  | .index => .ok (some (dropResult obj ("DROP INDEX " ++ object_name ++ ";")))
  | .constraint =>
    .ok (some (dropResult obj ("ALTER TABLE " ++ lastComponent object_name
      ++ " DROP CONSTRAINT " ++ obj.object_name ++ ";")))
  | .policy =>
    let table_name := if object_name.data.contains '.' then lastComponent object_name
      else obj.object_name
    .ok (some (dropResult obj ("DROP POLICY " ++ obj.object_name ++ " ON "
      ++ table_name ++ ";")))
  | .grant => generate_drop_grant obj
  | t => .ok (some (dropResult obj ("DROP " ++ strUpper t.value ++ " "
      ++ object_name ++ ";")))

/-- The `ASTObject(...)` constructed for each statement in
`_generate_table_alter_commands`. -/
def tableAlterObj (new_obj : ASTObject) (command : String) : ASTObject :=
  mkObj command new_obj.object_name .unknown new_obj.dependencies new_obj.schema

/-- The `ADD COLUMN` statement text of `_generate_table_alter_commands`. -/
def tableAddCmd (new_obj : ASTObject) (table_name : String)
    (column : TableColumn) : ASTObject :=
  tableAlterObj new_obj ("ALTER TABLE " ++ table_name ++ " ADD COLUMN "
    ++ column.name ++ " " ++ column.data_type
    ++ (if !column.is_nullable then " NOT NULL" else "")
    ++ (if column.default ≠ "" then " DEFAULT " ++ column.default else "") ++ ";")

/-- The `DROP COLUMN` statement text of `_generate_table_alter_commands`. -/
def tableRemoveCmd (new_obj : ASTObject) (table_name : String)
    (column : TableColumn) : ASTObject :=
  tableAlterObj new_obj ("ALTER TABLE " ++ table_name ++ " DROP COLUMN "
    ++ column.name ++ ";")

/-- The up-to-three statements per changed column (type, then nullability,
then default) of `_generate_table_alter_commands`. -/
def tableChangeCmds (new_obj : ASTObject) (table_name : String)
    (pc : TableColumn × TableColumn) : List ASTObject :=
  let old_col := pc.1
  let new_col := pc.2
  (if old_col.data_type ≠ new_col.data_type then
    [tableAlterObj new_obj ("ALTER TABLE " ++ table_name ++ " ALTER COLUMN "
      ++ new_col.name ++ " TYPE " ++ new_col.data_type ++ ";")]
   else [])
  ++ (if old_col.is_nullable ≠ new_col.is_nullable then
    [tableAlterObj new_obj ("ALTER TABLE " ++ table_name ++ " ALTER COLUMN "
      ++ new_col.name
      ++ (if new_col.is_nullable then " DROP NOT NULL;" else " SET NOT NULL;"))]
   else [])
  ++ (if old_col.default ≠ new_col.default then
    [tableAlterObj new_obj ("ALTER TABLE " ++ table_name ++ " ALTER COLUMN "
      ++ new_col.name
      ++ (if new_col.default = "" then " DROP DEFAULT;"
          else " SET DEFAULT " ++ new_col.default ++ ";"))]
   else [])

/-- `_generate_table_alter_commands`: the three statement groups are appended
in source order (adds, then removes, then per-column changes). -/
def generate_table_alter_commands (old_obj new_obj : ASTObject) : List ASTObject :=
  let table_name := new_obj.qualified_name
  match old_obj.detail, new_obj.detail with
  | .table oldCols _, .table newCols _ =>
    (tableDiff newCols oldCols).1.map (tableAddCmd new_obj table_name)
    ++ (tableDiff newCols oldCols).2.1.map (tableRemoveCmd new_obj table_name)
    ++ (tableDiff newCols oldCols).2.2.flatMap (tableChangeCmds new_obj table_name)
  | _, _ =>
    if old_obj.query_hash ≠ new_obj.query_hash then
      [tableAlterObj new_obj ("ALTER TABLE " ++ table_name
        ++ " ADD COLUMN new_column TEXT; -- TODO: Implement proper column comparison")]
    else []

/-- The `GRANT` branch of `_generate_alter_commands`. -/
def generate_alter_grant (old_obj new_obj : ASTObject) : Except PyError (List ASTObject) :=
  let old_grant_parts := pySplit old_obj.object_name "_"
  if old_grant_parts.length ≥ 5 ∧ old_grant_parts.head? = some "grant" then
    match old_grant_parts.indexOf? "on", old_grant_parts.indexOf? "to" with
    | some on_index, some to_index =>
      if on_index < to_index then
        let object_name := String.intercalate "_"
          ((old_grant_parts.drop (on_index + 1)).take (to_index - (on_index + 1)))
        let privileges := (old_grant_parts.drop 1).take (on_index - 1)
        let grantees := old_grant_parts.drop (to_index + 1)
        let privilege_str :=
          if privileges ≠ [] then String.intercalate " " privileges else "ALL"
        let grantee_str :=
          if grantees ≠ [] then String.intercalate " " grantees else "PUBLIC"
        let revoke_sql := "REVOKE " ++ privilege_str ++ " ON " ++ object_name
          ++ " FROM " ++ grantee_str ++ ";"
        .ok (parse_sql_to_ast_objects revoke_sql ++ [new_obj])
      else .ok [new_obj]
    | _, _ =>
      match (pySplit (pyReplace old_obj.object_name "grant_" "") "_on_")[1]? with
      | none => .error .indexError
      | some after_on =>
        let target := (pySplit after_on "_to_").headD after_on
        .ok (parse_sql_to_ast_objects ("REVOKE ALL ON " ++ target ++ " FROM PUBLIC;")
          ++ [new_obj])
  else .ok [new_obj]

/-- `_generate_alter_commands`. -/
def generate_alter_commands (old_obj new_obj : ASTObject) :
    Except PyError (List ASTObject) :=
  match old_obj.query_type with
  | .base_table => .ok (generate_table_alter_commands old_obj new_obj)
  | .view => do
    let drop_cmd ← generate_drop_command old_obj
    .ok (drop_cmd.toList ++ [new_obj])
  | .function =>
    match old_obj.detail, new_obj.detail with
    | .func _ _ _ _, .func _ _ _ _ =>
      if signatureMatches old_obj new_obj then .ok [new_obj]
      else do
        let drop_cmd ← generate_drop_command old_obj
        .ok (drop_cmd.toList ++ [new_obj])
    | _, _ => do
      let drop_cmd ← generate_drop_command old_obj
      .ok (drop_cmd.toList ++ [new_obj])
  | .procedure =>
    match old_obj.detail, new_obj.detail with
    | .func _ _ _ _, .func _ _ _ _ =>
      if signatureMatches old_obj new_obj then .ok [new_obj]
      else do
        let drop_cmd ← generate_drop_command old_obj
        .ok (drop_cmd.toList ++ [new_obj])
    | _, _ => do
      let drop_cmd ← generate_drop_command old_obj
      .ok (drop_cmd.toList ++ [new_obj])
  | .grant => generate_alter_grant old_obj new_obj
  | _ => .ok []

/-! Python string comparison (code-point lexicographic) and `sorted`. -/

def charLt (a b : Char) : Bool := a.toNat < b.toNat

def listCharLt : List Char → List Char → Bool
  | [], [] => false
  | [], _ :: _ => true
  | _ :: _, [] => false
  | a :: as, b :: bs =>
    if charLt a b then true else if charLt b a then false else listCharLt as bs

def strLt (s t : String) : Bool := listCharLt s.data t.data

def insertSortedStr (x : String) : List String → List String
  | [] => [x]
  | y :: ys => if strLt y x then y :: insertSortedStr x ys else x :: y :: ys

/-- `sorted` on a list of distinct strings (insertion sort; any comparison
sort agrees on duplicate-free input). -/
def sortStrings : List String → List String
  | [] => []
  | x :: xs => insertSortedStr x (sortStrings xs)

def dedupAux (seen : List String) : List String → List String
  | [] => []
  | x :: xs => if x ∈ seen then dedupAux seen xs else x :: dedupAux (x :: seen) xs

/-- Distinct elements in first-occurrence order (the content of
`set(a) | set(b)` before `sorted` fixes the order). -/
def dedupStrings (l : List String) : List String := dedupAux [] l

/-- `make_key` inside `diff_schemas`: `f"{obj.query_type.value}:{obj.qualified_name}"`. -/
def make_key (o : ASTObject) : String := o.query_type.value ++ ":" ++ o.qualified_name

/-- `diff_schemas`: build the two key maps (last write wins), walk the sorted
union of keys and emit create / drop / alter commands. -/
def diff_schemas (base updated : List ASTObject) : Except PyError (List ASTObject) :=
  let base_map := buildDict (base.map fun o => (make_key o, o))
  let updated_map := buildDict (updated.map fun o => (make_key o, o))
  let all_keys := sortStrings (dedupStrings (dictKeysG base_map ++ dictKeysG updated_map))
  all_keys.foldlM (fun migration_commands key =>
    match dictGetG base_map key, dictGetG updated_map key with
    | none, some obj => pure (migration_commands ++ [obj])
    | some obj, none => do
      let drop_command ← generate_drop_command obj
      pure (migration_commands ++ drop_command.toList)
    | some old_obj, some new_obj =>
      if old_obj.query_hash ≠ new_obj.query_hash then do
        let alter_commands ← generate_alter_commands old_obj new_obj
        pure (migration_commands ++ alter_commands)
      else pure migration_commands
    | none, none => pure migration_commands) []

/-! ## Basic lemmas about the dictionary and sorting helpers -/

theorem mem_insertSortedStr {y x : String} {l : List String} :
    y ∈ insertSortedStr x l ↔ y = x ∨ y ∈ l := by
  induction l with
  | nil => simp [insertSortedStr]
  | cons z zs ih =>
    simp only [insertSortedStr]
    by_cases h : strLt z x
    · rw [if_pos h]
      simp only [List.mem_cons, ih]
      tauto
    · rw [if_neg h]
      simp only [List.mem_cons]

theorem mem_sortStrings {y : String} {l : List String} :
    y ∈ sortStrings l ↔ y ∈ l := by
  induction l with
  | nil => simp [sortStrings]
  | cons x xs ih => simp [sortStrings, mem_insertSortedStr, ih]

theorem mem_of_mem_dedupAux {y : String} {seen l : List String} :
    y ∈ dedupAux seen l → y ∈ l := by
  induction l generalizing seen with
  | nil => simp [dedupAux]
  | cons x xs ih =>
    simp only [dedupAux]
    by_cases h : x ∈ seen
    · rw [if_pos h]
      intro hy
      exact List.mem_cons_of_mem _ (ih hy)
    · rw [if_neg h]
      intro hy
      rcases List.mem_cons.mp hy with rfl | hy
      · exact List.mem_cons_self _ _
      · exact List.mem_cons_of_mem _ (ih hy)

theorem dictGetG_isSome_of_mem_keys {α : Type} {m : List (String × α)} {k : String}
    (h : k ∈ dictKeysG m) : (dictGetG m k).isSome := by
  induction m with
  | nil => simp [dictKeysG] at h
  | cons kv rest ih =>
    simp only [dictKeysG, List.map_cons, List.mem_cons] at h
    simp only [dictGetG]
    by_cases hk : kv.1 = k
    · simp [hk]
    · rcases h with h | h
      · exact absurd h.symm hk
      · simp [hk]
        exact ih h

/-! ## C3: `diff(X, X)` is empty -/

theorem foldlM_congr_pure {α β : Type} {l : List α} {acc : β}
    (f : β → α → Except PyError β)
    (h : ∀ b a, a ∈ l → f b a = pure b) :
    l.foldlM f acc = pure acc := by
  induction l generalizing acc with
  | nil => rfl
  | cons x xs ih =>
    simp only [List.foldlM_cons, h acc x (by simp)]
    exact ih (fun b a ha => h b a (by simp [ha]))

/-- C3: for every collection `X`, `diff_schemas X X` succeeds and returns the
empty action list: every key of the union is present in both maps with the
very same object, whose content hash is equal to itself, so no command is
emitted. -/
theorem diff_self_empty (X : List ASTObject) : diff_schemas X X = .ok [] := by
  unfold diff_schemas
  apply foldlM_congr_pure
  intro b key hkey
  have hmem : key ∈ dictKeysG (buildDict (X.map fun o => (make_key o, o))) := by
    have h1 := mem_sortStrings.mp hkey
    have h2 := mem_of_mem_dedupAux h1
    rcases List.mem_append.mp h2 with h | h <;> exact h
  have hsome := dictGetG_isSome_of_mem_keys hmem
  obtain ⟨v, hv⟩ := Option.isSome_iff_exists.mp hsome
  simp [hv]

/-! ## C10: synthesized non-grant actions are `unknown`-typed and keep the
source object's dependency list -/

/-- C10: every non-grant `DROP` action synthesized by `_generate_drop_command`
and every `ALTER TABLE` statement synthesized by
`_generate_table_alter_commands` is built with `query_type = UNKNOWN` (never
the source object's own query type) and carries the source object's
`dependencies` list unchanged (for drops, the base object's; for table
alters, the updated object's). -/
theorem mem_tableChangeCmds {new_obj : ASTObject} {table_name : String}
    {pc : TableColumn × TableColumn} {c : ASTObject}
    (hc : c ∈ tableChangeCmds new_obj table_name pc) :
    ∃ s, c = tableAlterObj new_obj s := by
  unfold tableChangeCmds at hc
  rcases List.mem_append.mp hc with h | h
  · rcases List.mem_append.mp h with h | h
    · split at h
      · exact ⟨_, (List.mem_singleton.mp h)⟩
      · simp at h
    · split at h
      · exact ⟨_, (List.mem_singleton.mp h)⟩
      · simp at h
  · split at h
    · exact ⟨_, (List.mem_singleton.mp h)⟩
    · simp at h

theorem synthesized_actions_unknown_and_deps :
    (∀ obj : ASTObject, obj.query_type ≠ .grant →
      ∃ d, generate_drop_command obj = .ok (some d) ∧
        d.query_type = .unknown ∧ d.dependencies = obj.dependencies) ∧
    (∀ old_obj new_obj c, c ∈ generate_table_alter_commands old_obj new_obj →
      c.query_type = .unknown ∧ c.dependencies = new_obj.dependencies) := by
  constructor
  · intro obj hng
    obtain ⟨cmd, onm, qt, rt, deps, qh, sch, det⟩ := obj
    cases qt <;> try exact ⟨_, rfl, rfl, rfl⟩
    case function =>
      cases det <;> try exact ⟨_, rfl, rfl, rfl⟩
      case func params a b c =>
        cases params <;> exact ⟨_, rfl, rfl, rfl⟩
    case procedure =>
      cases det <;> try exact ⟨_, rfl, rfl, rfl⟩
      case func params a b c =>
        cases params <;> exact ⟨_, rfl, rfl, rfl⟩
    case grant => exact absurd rfl hng
  · intro old_obj new_obj c hc
    have key : ∃ s, c = tableAlterObj new_obj s := by
      unfold generate_table_alter_commands at hc
      rcases hold : old_obj.detail with _ | ⟨oc, ocs⟩ | _ <;>
        rcases hnew : new_obj.detail with _ | ⟨nc, ncs⟩ | _ <;>
        rw [hold, hnew] at hc
      all_goals dsimp only at hc
      all_goals try (split at hc
                     · exact ⟨_, (List.mem_singleton.mp hc)⟩
                     · simp at hc)
      rcases List.mem_append.mp hc with h | h
      · rcases List.mem_append.mp h with h | h
        · obtain ⟨col, _, rfl⟩ := List.mem_map.mp h
          exact ⟨_, rfl⟩
        · obtain ⟨col, _, rfl⟩ := List.mem_map.mp h
          exact ⟨_, rfl⟩
      · obtain ⟨pc, _, hpc⟩ := List.mem_flatMap.mp h
        exact mem_tableChangeCmds hpc
    obtain ⟨s, rfl⟩ := key
    exact ⟨rfl, rfl⟩

/-- Witness for `synthesized_actions_unknown_and_deps` at concrete inputs. -/
theorem synthesized_actions_unknown_and_deps_witness :
    ∃ d, generate_drop_command (mkObj "CREATE TABLE t (a integer);" "t" .base_table ["s"] "")
        = .ok (some d) ∧ d.query_type = .unknown ∧ d.dependencies = ["s"] := by
  have h := synthesized_actions_unknown_and_deps.1
    (mkObj "CREATE TABLE t (a integer);" "t" .base_table ["s"] "") (by decide)
  exact h

/-! ## C5: changed views -/

/-- Base version of the view used by the C5 counterexample. -/
def viewOldC5 : ASTObject := mkObj "CREATE VIEW v AS SELECT 1;" "v" .view [] ""

/-- Updated version of the view used by the C5 counterexample. -/
def viewNewC5 : ASTObject := mkObj "CREATE VIEW v AS SELECT 2;" "v" .view [] ""

/-- C5 counterexample: for a changed view (same key, differing content hash)
the core diff emits TWO actions — a `DROP VIEW` followed by the updated
definition verbatim — not a single `CREATE OR REPLACE VIEW` statement, and a
`DROP VIEW` action IS emitted, contradicting the claim. -/
theorem view_alter_counterexample :
    make_key viewOldC5 = make_key viewNewC5 ∧
    viewOldC5.query_hash ≠ viewNewC5.query_hash ∧
    Except.map (List.map ASTObject.command) (diff_schemas [viewOldC5] [viewNewC5])
      = .ok ["DROP VIEW v;", "CREATE VIEW v AS SELECT 2;"] :=
  ⟨rfl, by decide, rfl⟩

/-- C5 (amended): for every changed view the type-specific differ emits
exactly two actions: the synthesized `DROP VIEW <qualifiedName>;` built from
the base action (with `query_type = unknown`), followed by the updated action
unchanged.  No `CREATE OR REPLACE` rewrite happens in the core diff path (the
`_replace_create_view_with_or_replace` rewrite lives only in the separate CLI
alter generator). -/
theorem view_alter_drops_and_recreates (old_obj new_obj : ASTObject)
    (h : old_obj.query_type = .view) :
    generate_alter_commands old_obj new_obj
      = .ok [dropResult old_obj ("DROP VIEW " ++ old_obj.qualified_name ++ ";"),
             new_obj] := by
  obtain ⟨cmd, onm, qt, rt, deps, qh, sch, det⟩ := old_obj
  dsimp only at h
  subst h
  rfl

/-- Witness for `view_alter_drops_and_recreates` at concrete views. -/
theorem view_alter_drops_and_recreates_witness :
    generate_alter_commands (mkObj "CREATE VIEW w AS SELECT 1;" "w" .view [] "")
        (mkObj "CREATE VIEW w AS SELECT 2;" "w" .view [] "")
      = .ok [dropResult (mkObj "CREATE VIEW w AS SELECT 1;" "w" .view [] "")
               "DROP VIEW w;",
             mkObj "CREATE VIEW w AS SELECT 2;" "w" .view [] ""] := by
  exact view_alter_drops_and_recreates _ _ rfl

/-! ## C6: function signature hash -/

/-- Accessors for the `FunctionASTObject` payload. -/
def funcParams (o : ASTObject) : List FunctionParameter :=
  match o.detail with | .func p _ _ _ => p | _ => []

def funcReturnType (o : ASTObject) : String :=
  match o.detail with | .func _ r _ _ => r | _ => ""

def funcLanguage (o : ASTObject) : String :=
  match o.detail with | .func _ _ l _ => l | _ => ""

/-- Base version of the function used by the C6 counterexample: one `integer`
parameter named `a`. -/
def fnOldC6 : ASTObject :=
  mkFuncObj "CREATE FUNCTION f(a integer) RETURNS integer AS $$ SELECT a $$ LANGUAGE sql;"
    "f" [] "" [{ name := "a", data_type := "integer" }] "integer" "sql"

/-- Updated version for the C6 counterexample: same parameter type, return
type and language, but the parameter is renamed to `b` and the body changed. -/
def fnNewC6 : ASTObject :=
  mkFuncObj "CREATE FUNCTION f(b integer) RETURNS integer AS $$ SELECT b + 1 $$ LANGUAGE sql;"
    "f" [] "" [{ name := "b", data_type := "integer" }] "integer" "sql"

/-- C6 counterexample: the ordered parameter types, the return type and the
language are all unchanged, yet the diff emits a `DROP FUNCTION` followed by
the `CREATE` statement (two actions) instead of the claimed single
`CREATE OR REPLACE`: the signature hash also covers the parameter *names* (and
modes), so a parameter rename forces drop-and-recreate. -/
theorem function_rename_counterexample :
    (funcParams fnOldC6).map (·.data_type) = (funcParams fnNewC6).map (·.data_type) ∧
    funcReturnType fnOldC6 = funcReturnType fnNewC6 ∧
    funcLanguage fnOldC6 = funcLanguage fnNewC6 ∧
    fnOldC6.query_hash ≠ fnNewC6.query_hash ∧
    Except.map (List.map ASTObject.command) (generate_alter_commands fnOldC6 fnNewC6)
      = .ok ["DROP FUNCTION f(integer);",
             "CREATE FUNCTION f(b integer) RETURNS integer AS $$ SELECT b + 1 $$ LANGUAGE sql;"] :=
  ⟨rfl, rfl, rfl, by decide, rfl⟩

/-- C6 (amended): `signatureHash` is a hash over the ordered parameter
(mode, name, type) triples plus the return type and the language.
Consequently (a) a changed function whose parameters — including their names
and modes — return type and language are all unchanged yields exactly the
updated `CREATE OR REPLACE` action and no `DROP`, and (b) a changed signature
hash yields the type-specific `DROP FUNCTION` listing the old parameter types
followed by the updated action. -/
theorem function_signature_dispatch :
    (∀ c1 c2 n1 n2 : String, ∀ d1 d2 : List String, ∀ s1 s2 : String,
      ∀ params : List FunctionParameter, ∀ ret lang : String,
      generate_alter_commands (mkFuncObj c1 n1 d1 s1 params ret lang)
          (mkFuncObj c2 n2 d2 s2 params ret lang)
        = .ok [mkFuncObj c2 n2 d2 s2 params ret lang]) ∧
    (∀ c1 c2 n1 n2 : String, ∀ d1 d2 : List String, ∀ s1 s2 : String,
      ∀ pO pN : List FunctionParameter, ∀ rO rN lO lN : String,
      generateSignatureHash pO rO lO ≠ generateSignatureHash pN rN lN →
      pO ≠ [] →
      generate_alter_commands (mkFuncObj c1 n1 d1 s1 pO rO lO)
          (mkFuncObj c2 n2 d2 s2 pN rN lN)
        = .ok [dropResult (mkFuncObj c1 n1 d1 s1 pO rO lO)
                 ("DROP FUNCTION " ++ (mkFuncObj c1 n1 d1 s1 pO rO lO).qualified_name
                   ++ "(" ++ String.intercalate ", " (pO.map (·.data_type)) ++ ");"),
               mkFuncObj c2 n2 d2 s2 pN rN lN]) := by
  constructor
  · intro c1 c2 n1 n2 d1 d2 s1 s2 params ret lang
    simp only [generate_alter_commands, mkFuncObj, mkObj, signatureMatches,
      beq_self_eq_true, if_true]
  · intro c1 c2 n1 n2 d1 d2 s1 s2 pO pN rO rN lO lN hsig hp
    have hb : (generateSignatureHash pO rO lO == generateSignatureHash pN rN lN) = false := by
      exact beq_eq_false_iff_ne.mpr hsig
    simp only [generate_alter_commands, mkFuncObj, mkObj, signatureMatches, hb,
      Bool.false_eq_true, if_false, generate_drop_command]
    rw [if_pos hp]
    rfl

/-- Witness for `function_signature_dispatch`: a body-only change keeps a
single action, and a parameter-type change produces drop-then-create. -/
theorem function_signature_dispatch_witness :
    generate_alter_commands
        (mkFuncObj "CREATE FUNCTION g(x integer) RETURNS integer AS $$ SELECT 1 $$ LANGUAGE sql;"
          "g" [] "" [{ name := "x", data_type := "integer" }] "integer" "sql")
        (mkFuncObj "CREATE FUNCTION g(x integer) RETURNS integer AS $$ SELECT 2 $$ LANGUAGE sql;"
          "g" [] "" [{ name := "x", data_type := "integer" }] "integer" "sql")
      = .ok [mkFuncObj "CREATE FUNCTION g(x integer) RETURNS integer AS $$ SELECT 2 $$ LANGUAGE sql;"
          "g" [] "" [{ name := "x", data_type := "integer" }] "integer" "sql"] ∧
    generate_alter_commands
        (mkFuncObj "CREATE FUNCTION h(x integer) RETURNS integer AS $$ SELECT 1 $$ LANGUAGE sql;"
          "h" [] "" [{ name := "x", data_type := "integer" }] "integer" "sql")
        (mkFuncObj "CREATE FUNCTION h(x text) RETURNS integer AS $$ SELECT 2 $$ LANGUAGE sql;"
          "h" [] "" [{ name := "x", data_type := "text" }] "integer" "sql")
      = .ok [dropResult (mkFuncObj "CREATE FUNCTION h(x integer) RETURNS integer AS $$ SELECT 1 $$ LANGUAGE sql;"
               "h" [] "" [{ name := "x", data_type := "integer" }] "integer" "sql")
               "DROP FUNCTION h(integer);",
             mkFuncObj "CREATE FUNCTION h(x text) RETURNS integer AS $$ SELECT 2 $$ LANGUAGE sql;"
               "h" [] "" [{ name := "x", data_type := "text" }] "integer" "sql"] := by
  constructor
  · exact function_signature_dispatch.1 _ _ _ _ _ _ _ _ _ _ _
  · exact function_signature_dispatch.2 _ _ _ _ _ _ _ _ _ _ _ _ _ _ (by decide) (by decide)

/-! ## C4: failure semantics of the type-specific differ -/

/-- Base/updated versions of an index for the C4 counterexample. -/
def idxOldC4 : ASTObject := mkObj "CREATE INDEX i ON t (a);" "i" .index [] ""

def idxNewC4 : ASTObject := mkObj "CREATE INDEX i ON t (a, b);" "i" .index [] ""

/-- Changed grant whose malformed name makes the grant differ raise. -/
def grantOldC4 : ASTObject := mkObj "GRANT SELECT ON t1 TO u1;" "grant_a_b_c_d" .grant [] ""

def grantNewC4 : ASTObject := mkObj "GRANT UPDATE ON t1 TO u1;" "grant_a_b_c_d" .grant [] ""

/-- C4 counterexample: a changed index (a queryType with no dedicated differ)
produces NO actions at all — there is no generic drop-then-create fallback —
and a changed grant whose name splits into ≥ 5 `_`-parts headed by `grant`
but containing no `on` part makes the diff raise an uncaught `IndexError`
instead of degrading to a fallback. -/
theorem differ_failure_counterexample :
    make_key idxOldC4 = make_key idxNewC4 ∧
    idxOldC4.query_hash ≠ idxNewC4.query_hash ∧
    diff_schemas [idxOldC4] [idxNewC4] = .ok [] ∧
    grantOldC4.query_hash ≠ grantNewC4.query_hash ∧
    diff_schemas [grantOldC4] [grantNewC4] = .error .indexError :=
  ⟨rfl, by decide, rfl, by decide, rfl⟩

/-- C4 (amended): the structural differ has dedicated handling only for
`base_table`, `view`, `function`, `procedure` and `grant`.  (a) A changed
object of any other queryType contributes zero actions — the change is
silently skipped, with no generic fallback — and the engine continues with
the remaining keys; (b) for the four non-grant handled types the differ is
total (it never fails), so only the grant differ can abort the diff. -/
theorem differ_dispatch_totality :
    (∀ old_obj new_obj : ASTObject,
      old_obj.query_type ≠ .base_table → old_obj.query_type ≠ .view →
      old_obj.query_type ≠ .function → old_obj.query_type ≠ .procedure →
      old_obj.query_type ≠ .grant →
      generate_alter_commands old_obj new_obj = .ok []) ∧
    (∀ old_obj new_obj : ASTObject,
      (old_obj.query_type = .base_table ∨ old_obj.query_type = .view ∨
       old_obj.query_type = .function ∨ old_obj.query_type = .procedure) →
      ∃ cmds, generate_alter_commands old_obj new_obj = .ok cmds) := by
  constructor
  · intro old_obj new_obj h1 h2 h3 h4 h5
    obtain ⟨cmd, onm, qt, rt, deps, qh, sch, det⟩ := old_obj
    dsimp only at h1 h2 h3 h4 h5
    cases qt <;> first
      | rfl
      | exact absurd rfl h1
      | exact absurd rfl h2
      | exact absurd rfl h3
      | exact absurd rfl h4
      | exact absurd rfl h5
  · intro old_obj new_obj h
    obtain ⟨cmd, onm, qt, rt, deps, qh, sch, det⟩ := old_obj
    obtain ⟨cmd2, onm2, qt2, rt2, deps2, qh2, sch2, det2⟩ := new_obj
    dsimp only at h
    rcases h with rfl | rfl | rfl | rfl
    · exact ⟨_, rfl⟩
    · exact ⟨_, rfl⟩
    · cases det <;> try exact ⟨_, rfl⟩
      case func params a b c =>
        cases det2 <;> try (cases params <;> exact ⟨_, rfl⟩)
        case func params2 a2 b2 c2 =>
          simp only [generate_alter_commands, signatureMatches]
          rcases Bool.eq_false_or_eq_true (c == c2) with hb | hb <;>
            simp only [hb, Bool.false_eq_true, if_false, if_true] <;>
            first
              | exact ⟨_, rfl⟩
              | (cases params <;> exact ⟨_, rfl⟩)
    · cases det <;> try exact ⟨_, rfl⟩
      case func params a b c =>
        cases det2 <;> try (cases params <;> exact ⟨_, rfl⟩)
        case func params2 a2 b2 c2 =>
          simp only [generate_alter_commands, signatureMatches]
          rcases Bool.eq_false_or_eq_true (c == c2) with hb | hb <;>
            simp only [hb, Bool.false_eq_true, if_false, if_true] <;>
            first
              | exact ⟨_, rfl⟩
              | (cases params <;> exact ⟨_, rfl⟩)

/-- Witness for `differ_dispatch_totality` at concrete inputs. -/
theorem differ_dispatch_totality_witness :
    generate_alter_commands (mkObj "CREATE TRIGGER tr ..." "tr" .trigger [] "")
        (mkObj "CREATE TRIGGER tr2 ..." "tr" .trigger [] "") = .ok [] ∧
    ∃ cmds, generate_alter_commands (mkObj "CREATE VIEW z AS SELECT 1;" "z" .view [] "")
        (mkObj "CREATE VIEW z AS SELECT 3;" "z" .view [] "") = .ok cmds := by
  constructor
  · exact differ_dispatch_totality.1 _ _ (by decide) (by decide) (by decide) (by decide) (by decide)
  · exact differ_dispatch_totality.2 _ _ (Or.inr (Or.inl rfl))

/-! ## C9 counterexample: whitespace-only edits in general do NOT preserve
the hash -/

/-- C9 counterexample: `"ab"` and `"a b"` differ only in whitespace (they are
equal after deleting every whitespace character), yet their content hashes
differ: the normalizer keeps a single space between word characters, so
inserting whitespace where none existed changes the digest. -/
theorem hash_whitespace_counterexample :
    "ab" ≠ "a b" ∧
    "ab".data.filter (fun c => !isWsChar c) = ("a b").data.filter (fun c => !isWsChar c) ∧
    generateHash "ab" ≠ generateHash "a b" := by
  refine ⟨by decide, by decide, by decide⟩

/-! ## Dependency sorter (`sorter.py`)

The sorter accepts `Union[Dict, ASTObject]` rows; the dict branch is a
backward-compatibility shim and the engine passes `ASTObject`s, so the
embedding covers the `ASTObject` branch of the `_get_*` accessors. -/

/-- `_get_object_name` on an `ASTObject`: its qualified name (`""` when the
object has no name, matching the `or ""` in `qualified_name` and the
truthiness tests at every use site). -/
def getObjectName (q : ASTObject) : String := q.qualified_name

/-- `_get_dependencies` on an `ASTObject`. -/
def getDependencies (q : ASTObject) : List String := q.dependencies

/-- `_get_query_hash` on an `ASTObject`. -/
def getQueryHash (q : ASTObject) : String := q.query_hash

/-- `defaultdict(set)` adjacency: `graph[k].add(v)` (set semantics; iteration
order modelled as insertion order). -/
def adjGet (g : List (String × List String)) (k : String) : List String :=
  (dictGetG g k).getD []

def adjAdd (g : List (String × List String)) (k v : String) :
    List (String × List String) :=
  let cur := adjGet g k
  dictInsertG g k (if v ∈ cur then cur else cur ++ [v])

/-- `defaultdict(int)` in-degrees. -/
def degGet (d : List (String × Int)) (k : String) : Int := (dictGetG d k).getD 0

def degSet (d : List (String × Int)) (k : String) (v : Int) : List (String × Int) :=
  dictInsertG d k v

/-- The dependency graph under construction: adjacency plus in-degrees. -/
structure SortGraph where
  graph : List (String × List String)
  indeg : List (String × Int)

/-- `name_to_query` of `_sort_by_object_names`: insertion-ordered dict keyed
by qualified name, last write wins, nameless queries skipped. -/
def nameToQuery (queries : List ASTObject) : List (String × ASTObject) :=
  queries.foldl
    (fun m q => if getObjectName q ≠ "" then dictInsertG m (getObjectName q) q else m)
    []

/-- `dep_to_object` of `_sort_by_object_names`: for each GRANT query, map
every dependency token to the grant's own object name. -/
def depToObject (queries : List ASTObject) (grant_handling : Bool) :
    List (String × String) :=
  if grant_handling then
    queries.foldl
      (fun m q =>
        if q.query_type.value = "grant" then
          q.dependencies.foldl (fun m dep => dictInsertG m dep (getObjectName q)) m
        else m)
      []
  else []

/-- The two statements `graph[src].add(owner); in_degree[owner] += 1`
(repeated verbatim in both sorters): record the edge in the adjacency set and
bump the owner's in-degree — unconditionally, even when the set already held
the edge. -/
def addEdge (st : SortGraph) (src owner : String) : SortGraph :=
  { graph := adjAdd st.graph src owner,
    indeg := degSet st.indeg owner (degGet st.indeg owner + 1) }

/-- One dependency visit of the edge-construction loop of
`_sort_by_object_names`: a resolvable dependency adds edge `dep → owner`;
otherwise, with grant handling on, a token shared with some grant's
dependency adds edge `grant → owner`. -/
def depStep (n2q : List (String × ASTObject)) (d2o : List (String × String))
    (grant_handling : Bool) (object_name : String) (st : SortGraph)
    (dep : String) : SortGraph :=
  if (dictGetG n2q dep).isSome then addEdge st dep object_name
  else
    match dictGetG d2o dep with
    | some grant_obj_name =>
      if grant_handling ∧ (dictGetG n2q grant_obj_name).isSome
          ∧ grant_obj_name ≠ object_name then
        addEdge st grant_obj_name object_name
      else st
    | none => st

/-- The edge-construction loop body of `_sort_by_object_names`. -/
def addEdgesForQuery (n2q : List (String × ASTObject)) (d2o : List (String × String))
    (grant_handling : Bool) (st : SortGraph) (q : ASTObject) : SortGraph :=
  if getObjectName q ≠ "" then
    q.dependencies.foldl (depStep n2q d2o grant_handling (getObjectName q)) st
  else st

def buildGraphON (queries : List ASTObject) (n2q : List (String × ASTObject))
    (d2o : List (String × String)) (grant_handling : Bool) : SortGraph :=
  queries.foldl (addEdgesForQuery n2q d2o grant_handling) ⟨[], []⟩

/-- One neighbor visit of the Kahn loop: decrement its in-degree and collect
it when the degree reaches exactly zero. -/
def processNeighbor (acc : List (String × Int) × List String) (m : String) :
    List (String × Int) × List String :=
  let d := degGet acc.1 m - 1
  (degSet acc.1 m d, if d = 0 then acc.2 ++ [m] else acc.2)

/-- Kahn's algorithm main loop (`while queue:`), shared verbatim by both
sorters.  The fuel only bounds the recursion; `kahnFuel` below always
dominates the loop's strictly decreasing measure (queue length plus the sum
of positive in-degrees), so the fuel-exhaustion branch is unreachable. -/
def kahnLoop : Nat → List String → List (String × Int) →
    List (String × List String) → List String → List String
  | 0, _, _, _, acc => acc
  | _ + 1, [], _, _, acc => acc
  | fuel + 1, current :: queue, indeg, graph, acc =>
    let step := (adjGet graph current).foldl processNeighbor (indeg, [])
    kahnLoop fuel (queue ++ step.2) step.1 graph (acc ++ [current])

def kahnFuel (indeg : List (String × Int)) (queueLen : Nat) : Nat :=
  queueLen + (indeg.map (fun p => p.2.toNat)).sum + 1

/-- The graph/in-degree pair built by `_sort_by_object_names`. -/
def onGraph (queries : List ASTObject) (grant_handling : Bool) : SortGraph :=
  buildGraphON queries (nameToQuery queries) (depToObject queries grant_handling)
    grant_handling

/-- The initial Kahn queue of `_sort_by_object_names`: the zero-in-degree
names in `name_to_query` insertion order. -/
def onQueue (queries : List ASTObject) (grant_handling : Bool) : List String :=
  (dictKeysG (nameToQuery queries)).filter
    (fun n => degGet (onGraph queries grant_handling).indeg n == 0)

/-- The `sorted_names` produced by the Kahn loop of `_sort_by_object_names`. -/
def sortedNamesON (queries : List ASTObject) (grant_handling : Bool) : List String :=
  kahnLoop
    (kahnFuel (onGraph queries grant_handling).indeg (onQueue queries grant_handling).length)
    (onQueue queries grant_handling)
    (onGraph queries grant_handling).indeg
    (onGraph queries grant_handling).graph
    []

/-- `_sort_by_object_names`: run the Kahn loop, fail on a shortfall, else
return sorted named queries, then named queries missing from `sorted_names`,
then nameless queries. -/
def sortByObjectNames (queries : List ASTObject) (grant_handling : Bool) :
    Except String (List ASTObject) :=
  if (sortedNamesON queries grant_handling).length
      ≠ (dictKeysG (nameToQuery queries)).length then
    .error "Cyclic dependency detected"
  else .ok ((sortedNamesON queries grant_handling).filterMap
      (fun n => dictGetG (nameToQuery queries) n)
    ++ queries.filter
      (fun q => decide (getObjectName q ≠ "" ∧
        getObjectName q ∉ sortedNamesON queries grant_handling))
    ++ queries.filter (fun q => decide (getObjectName q = "")))

/-- Bucket predicate of `_sort_by_query_hash`: GRANT and INDEX objects are
set aside before graph construction. -/
def isGrantIndex (q : ASTObject) : Bool :=
  q.query_type.value = "grant" ∨ q.query_type.value = "index"

/-- The GRANT/INDEX bucket of `_sort_by_query_hash` (the single bucketing
pass is modelled by three order-preserving filters with mutually exclusive
predicates). -/
def qhGrantIndex (queries : List ASTObject) : List ASTObject :=
  queries.filter isGrantIndex

/-- The hashed non-grant/non-index bucket of `_sort_by_query_hash`. -/
def qhOther (queries : List ASTObject) : List ASTObject :=
  queries.filter fun q => !isGrantIndex q && getQueryHash q ≠ ""

/-- The hashless bucket of `_sort_by_query_hash`. -/
def qhWithoutHash (queries : List ASTObject) : List ASTObject :=
  queries.filter fun q => !isGrantIndex q && getQueryHash q == ""

/-- `name_to_hash` of `_sort_by_query_hash`. -/
def qhNameToHash (queries : List ASTObject) : List (String × String) :=
  (qhOther queries).foldl
    (fun m q =>
      if getObjectName q ≠ "" ∧ getQueryHash q ≠ "" then
        dictInsertG m (getObjectName q) (getQueryHash q)
      else m)
    []

/-- `hash_to_query` of `_sort_by_query_hash`. -/
def qhHashToQuery (queries : List ASTObject) : List (String × ASTObject) :=
  (qhOther queries).foldl
    (fun m q =>
      if getQueryHash q ≠ "" then dictInsertG m (getQueryHash q) q else m)
    []

/-- The graph/in-degree pair built by `_sort_by_query_hash`. -/
def qhGraph (queries : List ASTObject) : SortGraph :=
  (qhOther queries).foldl
    (fun (st : SortGraph) q =>
      if getQueryHash q = "" then st
      else
        q.dependencies.foldl
          (fun (st : SortGraph) dep =>
            match dictGetG (qhNameToHash queries) dep with
            | some dep_hash =>
              if dep_hash ≠ "" then addEdge st dep_hash (getQueryHash q)
              else st
            | none => st)
          st)
    (⟨[], []⟩ : SortGraph)

/-- The initial Kahn queue of `_sort_by_query_hash`. -/
def qhQueue (queries : List ASTObject) : List String :=
  (dictKeysG (qhHashToQuery queries)).filter
    (fun h => degGet (qhGraph queries).indeg h == 0)

/-- The `sorted_hashes` produced by the Kahn loop of `_sort_by_query_hash`. -/
def sortedHashesQH (queries : List ASTObject) : List String :=
  kahnLoop (kahnFuel (qhGraph queries).indeg (qhQueue queries).length)
    (qhQueue queries) (qhGraph queries).indeg (qhGraph queries).graph []

/-- `_sort_by_query_hash`: sorted hashed non-grant/non-index objects first,
then grant/index objects, then objects without a hash. -/
def sortByQueryHash (queries : List ASTObject) : Except String (List ASTObject) :=
  if (sortedHashesQH queries).length ≠ (dictKeysG (qhHashToQuery queries)).length then
    .error "Cyclic dependency detected"
  else .ok ((sortedHashesQH queries).filterMap (fun h => dictGetG (qhHashToQuery queries) h)
    ++ qhGrantIndex queries ++ qhWithoutHash queries)

/-- `sort_queries` (`use_object_names` and `grant_handling` default to
`True`). -/
def sort_queries (objects : List ASTObject) (use_object_names : Bool := true)
    (grant_handling : Bool := true) : Except String (List ASTObject) :=
  if use_object_names then sortByObjectNames objects grant_handling
  else sortByQueryHash objects

/-- `sort_alter_commands`. -/
def sort_alter_commands (command_objects : List ASTObject) :
    Except String (List ASTObject) :=
  sort_queries command_objects false true

/-! ## Dictionary lemmas -/

theorem dictGetG_dictInsertG {α : Type} (m : List (String × α)) (k : String)
    (v : α) (k' : String) :
    dictGetG (dictInsertG m k v) k' = if k = k' then some v else dictGetG m k' := by
  induction m with
  | nil => rfl
  | cons kv rest ih =>
    obtain ⟨k0, v0⟩ := kv
    simp only [dictInsertG]
    split_ifs with h1 h2 <;> simp_all [dictGetG]

theorem dictGetG_foldl_pred {α : Type} {P : α → Prop} (key : α → String)
    (cond : α → Prop) [DecidablePred cond] (l : List α)
    (m0 : List (String × α)) (h0 : ∀ k v, dictGetG m0 k = some v → P v)
    (hl : ∀ q ∈ l, P q) :
    ∀ k v,
      dictGetG (l.foldl (fun m q => if cond q then dictInsertG m (key q) q else m) m0)
          k = some v → P v := by
  induction l generalizing m0 with
  | nil => exact h0
  | cons q qs ih =>
    simp only [List.foldl_cons]
    apply ih
    · intro k v hv
      by_cases hc : cond q
      · rw [if_pos hc, dictGetG_dictInsertG] at hv
        by_cases hk : key q = k
        · rw [if_pos hk] at hv
          cases hv
          exact hl q (by simp)
        · rw [if_neg hk] at hv
          exact h0 k v hv
      · rw [if_neg hc] at hv
        exact h0 k v hv
    · intro q' hq'
      exact hl q' (List.mem_cons_of_mem _ hq')

/-- Every value stored in `hash_to_query` comes from the hashed
non-grant/non-index bucket. -/
theorem qhHashToQuery_mem (queries : List ASTObject) :
    ∀ k v, dictGetG (qhHashToQuery queries) k = some v → v ∈ qhOther queries := by
  intro k v
  exact dictGetG_foldl_pred getQueryHash (fun q => getQueryHash q ≠ "") _ []
    (by intro k v h; cases h) (fun q hq => hq) k v

/-! ## C7: cycle detection -/

/-- Mutually dependent views used by the C7 counterexample. -/
def cycA : ASTObject := mkObj "CREATE VIEW alpha AS SELECT * FROM beta;" "alpha" .view ["beta"] ""

def cycB : ASTObject := mkObj "CREATE VIEW beta AS SELECT * FROM alpha;" "beta" .view ["alpha"] ""

/-- C7 counterexample: on two mutually dependent objects the sorter raises
`ValueError("Cyclic dependency detected")` — a fixed message.  Both nodes
(`alpha` and `beta`) have in-degree 1 and never reach zero (the Kahn phase
sorts nothing), yet neither name occurs in the error, so the error does not
"name every node whose in-degree never reached zero" as claimed. -/
theorem cycle_error_counterexample :
    sort_queries [cycA, cycB] = .error "Cyclic dependency detected" ∧
    sortedNamesON [cycA, cycB] true = [] ∧
    dictKeysG (nameToQuery [cycA, cycB]) = ["alpha", "beta"] ∧
    strContainsSub "Cyclic dependency detected" "alpha" = false ∧
    strContainsSub "Cyclic dependency detected" "beta" = false :=
  ⟨rfl, rfl, rfl, rfl, rfl⟩

/-- C7 (amended): in both sorters, whenever the Kahn loop terminates having
sorted fewer nodes than the node count, the sorter raises the cycle error
with the fixed message `"Cyclic dependency detected"` (naming no nodes), and
a successful return implies every node was sorted — a silent partial order is
never returned. -/
theorem cycle_error_on_shortfall :
    (∀ queries gh,
      (sortedNamesON queries gh).length ≠ (dictKeysG (nameToQuery queries)).length →
      sortByObjectNames queries gh = .error "Cyclic dependency detected") ∧
    (∀ queries gh out, sortByObjectNames queries gh = .ok out →
      (sortedNamesON queries gh).length = (dictKeysG (nameToQuery queries)).length) ∧
    (∀ queries,
      (sortedHashesQH queries).length ≠ (dictKeysG (qhHashToQuery queries)).length →
      sortByQueryHash queries = .error "Cyclic dependency detected") ∧
    (∀ queries out, sortByQueryHash queries = .ok out →
      (sortedHashesQH queries).length = (dictKeysG (qhHashToQuery queries)).length) := by
  refine ⟨?_, ?_, ?_, ?_⟩
  · intro queries gh h
    unfold sortByObjectNames
    rw [if_pos h]
  · intro queries gh out h
    unfold sortByObjectNames at h
    by_cases hc : (sortedNamesON queries gh).length = (dictKeysG (nameToQuery queries)).length
    · exact hc
    · rw [if_pos hc] at h
      cases h
  · intro queries h
    unfold sortByQueryHash
    rw [if_pos h]
  · intro queries out h
    unfold sortByQueryHash at h
    by_cases hc : (sortedHashesQH queries).length = (dictKeysG (qhHashToQuery queries)).length
    · exact hc
    · rw [if_pos hc] at h
      cases h

/-- Witness for `cycle_error_on_shortfall` at concrete inputs. -/
theorem cycle_error_on_shortfall_witness :
    sortByObjectNames
        [mkObj "CREATE VIEW p AS SELECT * FROM q;" "p" .view ["q"] "",
         mkObj "CREATE VIEW q AS SELECT * FROM p;" "q" .view ["p"] ""] true
      = .error "Cyclic dependency detected" := by
  exact cycle_error_on_shortfall.1 _ true (by decide)

/-! ## C8: ordering of grants -/

/-- Grant whose dependency token (`users`) does not match the target table's
qualified key (`public.users`). -/
def grantMismatchC8 : ASTObject :=
  mkObj "GRANT SELECT ON users TO app;" "grant_on_users" .grant ["users"] ""

def tableMismatchC8 : ASTObject :=
  mkObj "CREATE TABLE public.users (id int);" "users" .base_table [] "public"

/-- C8 counterexample: in the object-name sorter (the `sort_queries` default)
a grant whose recorded dependency token does not textually match its target
object's qualified key is NOT ordered after the target: with the grant first
in the input, the sorted output keeps the grant strictly before the table it
applies to. -/
theorem grant_order_counterexample :
    grantMismatchC8.query_type = .grant ∧
    grantMismatchC8.dependencies = ["users"] ∧
    getObjectName tableMismatchC8 = "public.users" ∧
    sort_queries [grantMismatchC8, tableMismatchC8]
      = .ok [grantMismatchC8, tableMismatchC8] :=
  ⟨rfl, rfl, rfl, rfl⟩

/-- C8 (amended): the guarantee holds in the query-hash sorter, and holds
there regardless of dependency tokens: every grant action is placed strictly
after every non-grant, non-index action that carries a query hash — in
particular after all of its target object's actions.  (The object-name
sorter orders a grant after its target only when the dependency token
textually matches the target's node name; under a mismatch the grant can
come first, as the counterexample shows.) -/
theorem hash_sorter_grants_after_objects (queries out : List ASTObject)
    (h : sortByQueryHash queries = .ok out) (i j : Nat) (qi qj : ASTObject)
    (hi : out[i]? = some qi) (hj : out[j]? = some qj)
    (hqi : isGrantIndex qi = false) (hhash : getQueryHash qi ≠ "")
    (hqj : qj.query_type = .grant) : i < j := by
  unfold sortByQueryHash at h
  split at h
  · cases h
  · injection h with h'
    subst h'
    have hs1 : ∀ q ∈ (sortedHashesQH queries).filterMap
        (fun h => dictGetG (qhHashToQuery queries) h), isGrantIndex q = false := by
      intro q hq
      obtain ⟨hh, _, hget⟩ := List.mem_filterMap.mp hq
      have hother := qhHashToQuery_mem queries hh q hget
      have := (List.mem_filter.mp hother).2
      simp only [Bool.and_eq_true, Bool.not_eq_true'] at this
      exact this.1
    have hgj : isGrantIndex qj = true := by
      simp [isGrantIndex, hqj, BuildStage.value]
    set s1 := (sortedHashesQH queries).filterMap
      (fun h => dictGetG (qhHashToQuery queries) h) with hs1def
    rw [List.append_assoc] at hi hj
    have hjge : s1.length ≤ j := by
      by_contra hlt
      push_neg at hlt
      rw [List.getElem?_append, if_pos hlt] at hj
      have : qj ∈ s1 := List.getElem?_mem hj
      rw [hs1 qj this] at hgj
      cases hgj
    have hilt : i < s1.length := by
      by_contra hge
      push_neg at hge
      rw [List.getElem?_append, if_neg (by omega)] at hi
      have hmem : qi ∈ qhGrantIndex queries ++ qhWithoutHash queries :=
        List.getElem?_mem hi
      rcases List.mem_append.mp hmem with hm | hm
      · have := (List.mem_filter.mp hm).2
        rw [hqi] at this
        cases this
      · have := (List.mem_filter.mp hm).2
        simp only [Bool.and_eq_true, Bool.not_eq_true'] at this
        exact hhash (by simpa using this.2)
    omega

/-- Concrete table and grant for the C8 witness. -/
def tblW8 : ASTObject := mkObj "CREATE TABLE users (id int);" "users" .base_table [] ""

def grW8 : ASTObject := mkObj "GRANT SELECT ON users TO app;" "grant_on_users" .grant ["users"] ""

/-- Witness for `hash_sorter_grants_after_objects` at a concrete table and
grant. -/
theorem hash_sorter_grants_after_objects_witness :
    sortByQueryHash [tblW8, grW8] = .ok [tblW8, grW8] ∧ (0 : Nat) < 1 := by
  refine ⟨rfl, ?_⟩
  exact hash_sorter_grants_after_objects [tblW8, grW8] [tblW8, grW8] rfl 0 1
    tblW8 grW8 rfl rfl (by decide) (by decide) rfl

/-! ## C2: correctness of the object-name sorter

Supporting theory: assoc-list dictionaries, the edge relation, in-edge
counting, and the Kahn loop invariant. -/

/-- The edge relation of a built graph: `EdgeG g a b` iff `b ∈ graph[a]`. -/
def EdgeG (g : List (String × List String)) (a b : String) : Prop :=
  b ∈ adjGet g a

instance (g : List (String × List String)) (a b : String) :
    Decidable (EdgeG g a b) := by
  unfold EdgeG
  infer_instance

/-- The entries whose adjacency set contains `m`, i.e. the in-neighborhood
of `m` as recorded in the dictionary. -/
def inKeysList (g : List (String × List String)) (m : String) : List String :=
  (g.filter fun p => decide (m ∈ p.2)).map (·.1)

theorem dictGetG_isSome_iff_mem_keys {α : Type} {m : List (String × α)}
    {k : String} : (dictGetG m k).isSome ↔ k ∈ dictKeysG m := by
  induction m with
  | nil => simp [dictGetG, dictKeysG]
  | cons kv rest ih =>
    simp only [dictGetG, dictKeysG, List.map_cons, List.mem_cons]
    by_cases h : kv.1 = k <;> simp [h, ih, dictKeysG]
    exact fun a => absurd a.symm h

theorem dictGetG_eq_some_mem {α : Type} {m : List (String × α)} {k : String}
    {v : α} (h : dictGetG m k = some v) : (k, v) ∈ m := by
  induction m with
  | nil => cases h
  | cons kv rest ih =>
    obtain ⟨k0, v0⟩ := kv
    simp only [dictGetG] at h
    by_cases hk : k0 = k
    · subst hk
      rw [if_pos rfl] at h
      cases h
      exact List.mem_cons_self _ _
    · rw [if_neg hk] at h
      exact List.mem_cons_of_mem _ (ih h)

theorem dictKeysG_dictInsertG {α : Type} (m : List (String × α)) (k : String)
    (v : α) :
    dictKeysG (dictInsertG m k v)
      = if k ∈ dictKeysG m then dictKeysG m else dictKeysG m ++ [k] := by
  induction m with
  | nil => simp [dictInsertG, dictKeysG]
  | cons kv rest ih =>
    simp only [dictInsertG]
    by_cases hk : kv.1 = k
    · rw [if_pos hk]
      simp [dictKeysG, hk]
    · rw [if_neg hk]
      simp only [dictKeysG, List.map_cons, List.mem_cons] at *
      have hkk : ¬k = kv.1 := fun h => hk h.symm
      by_cases hmem : k ∈ List.map (fun x => x.1) rest <;> simp [hmem, hkk, ih]

theorem dictKeysG_nodup_dictInsertG {α : Type} {m : List (String × α)}
    (h : (dictKeysG m).Nodup) (k : String) (v : α) :
    (dictKeysG (dictInsertG m k v)).Nodup := by
  rw [dictKeysG_dictInsertG]
  by_cases hk : k ∈ dictKeysG m <;> simp [hk, h, List.nodup_append]

theorem adjAdd_eq (g : List (String × List String)) (a b : String) :
    adjAdd g a b
      = dictInsertG g a (if b ∈ adjGet g a then adjGet g a else adjGet g a ++ [b]) :=
  rfl

theorem adjGet_adjAdd (g : List (String × List String)) (a b x : String) :
    adjGet (adjAdd g a b) x
      = if a = x then (if b ∈ adjGet g a then adjGet g a else adjGet g a ++ [b])
        else adjGet g x := by
  unfold adjAdd adjGet
  rw [dictGetG_dictInsertG]
  by_cases h : a = x <;> simp [h]

theorem EdgeG_adjAdd (g : List (String × List String)) (a b x y : String) :
    EdgeG (adjAdd g a b) x y ↔ (x = a ∧ y = b) ∨ EdgeG g x y := by
  unfold EdgeG
  rw [adjGet_adjAdd]
  by_cases hx : a = x
  · subst hx
    by_cases hb : b ∈ adjGet g a <;> by_cases hyb : y = b <;>
      simp [hb, hyb] <;> tauto
  · simp [hx]
    intro h1
    exact absurd h1.symm hx

theorem degGet_degSet (d : List (String × Int)) (k : String) (v : Int)
    (n : String) :
    degGet (degSet d k v) n = if k = n then v else degGet d n := by
  unfold degSet degGet
  rw [dictGetG_dictInsertG]
  by_cases h : k = n <;> simp [h]

/-- `dictInsertG` with the value already stored is the identity. -/
theorem dictInsertG_self {α : Type} (g : List (String × α)) (k : String)
    (v : α) (h : dictGetG g k = some v) : dictInsertG g k v = g := by
  induction g with
  | nil => cases h
  | cons kv rest ih =>
    simp only [dictGetG] at h
    simp only [dictInsertG]
    by_cases hk : kv.1 = k
    · rw [if_pos hk] at h ⊢
      cases h
      rfl
    · rw [if_neg hk] at h ⊢
      rw [ih h]

/-- In-count balance equation for a dictionary update. -/
theorem inCnt_dictInsertG (g : List (String × List String)) (k : String)
    (l' : List String) (m : String) :
    (inKeysList (dictInsertG g k l') m).length
        + (if m ∈ adjGet g k then 1 else 0)
      = (inKeysList g m).length + (if m ∈ l' then 1 else 0) := by
  induction g with
  | nil =>
    simp only [dictInsertG, inKeysList, adjGet, dictGetG]
    by_cases h : m ∈ l' <;> simp [h]
  | cons kv rest ih =>
    simp only [dictInsertG]
    by_cases hk : kv.1 = k
    · rw [if_pos hk]
      have hadj : adjGet (kv :: rest) k = kv.2 := by
        unfold adjGet
        simp [dictGetG, hk]
      rw [hadj]
      simp only [inKeysList, List.filter_cons]
      by_cases h2 : m ∈ kv.2 <;> by_cases h1 : m ∈ l' <;>
        simp [h1, h2] <;> omega
    · rw [if_neg hk]
      have hadj : adjGet (kv :: rest) k = adjGet rest k := by
        unfold adjGet
        simp [dictGetG, hk]
      rw [hadj]
      simp only [inKeysList, List.filter_cons] at *
      by_cases h2 : m ∈ kv.2 <;> simp [h2] at * <;> omega

theorem inCnt_adjAdd_ne (g : List (String × List String)) (a b m : String)
    (hm : m ≠ b) :
    (inKeysList (adjAdd g a b) m).length = (inKeysList g m).length := by
  rw [adjAdd_eq]
  have h := inCnt_dictInsertG g a
    (if b ∈ adjGet g a then adjGet g a else adjGet g a ++ [b]) m
  by_cases hcur : b ∈ adjGet g a <;> by_cases hma : m ∈ adjGet g a <;>
    simp only [hcur, hma, if_true, if_false, List.mem_append, List.mem_singleton,
      or_false, false_or, hm] at h ⊢ <;> simp [hma, hm] at h <;> omega

theorem inCnt_adjAdd_eq (g : List (String × List String)) (a b : String) :
    (inKeysList (adjAdd g a b) b).length ≤ (inKeysList g b).length + 1 := by
  rw [adjAdd_eq]
  have h := inCnt_dictInsertG g a
    (if b ∈ adjGet g a then adjGet g a else adjGet g a ++ [b]) b
  by_cases hcur : b ∈ adjGet g a <;> simp [hcur] at h ⊢ <;> omega

/-- An edge source is a stored key. -/
theorem EdgeG_mem_inKeysList {g : List (String × List String)} {a m : String}
    (h : EdgeG g a m) : a ∈ inKeysList g m := by
  unfold EdgeG adjGet at h
  cases hget : dictGetG g a with
  | none => rw [hget] at h; cases h
  | some l =>
    rw [hget] at h
    simp only [Option.getD_some] at h
    have hmem := dictGetG_eq_some_mem hget
    unfold inKeysList
    refine List.mem_map.mpr ⟨(a, l), ?_, rfl⟩
    exact List.mem_filter.mpr ⟨hmem, by simpa using h⟩

/-- The in-neighborhood list has no duplicates when the dictionary keys have
none. -/
theorem inKeysList_nodup {g : List (String × List String)}
    (h : (dictKeysG g).Nodup) (m : String) : (inKeysList g m).Nodup := by
  unfold inKeysList
  have hsub : List.Sublist ((g.filter fun p => decide (m ∈ p.2)).map (·.1))
      (g.map (·.1)) := (List.filter_sublist g).map _
  exact h.sublist hsub

/-- Well-formedness of the graph/in-degree pair maintained by the edge
construction loops: keys and adjacency sets are duplicate-free, the
in-degree of a node dominates the number of its stored in-edges (slack is
possible because a repeated dependency bumps the degree without growing the
set), and edge endpoints are node names. -/
structure GraphWF (st : SortGraph) (names : List String) : Prop where
  keys_nodup : (dictKeysG st.graph).Nodup
  adj_nodup : ∀ x, (adjGet st.graph x).Nodup
  slack : ∀ m, ((inKeysList st.graph m).length : Int) ≤ degGet st.indeg m
  edge_src : ∀ a b, EdgeG st.graph a b → a ∈ names
  edge_dst : ∀ a b, EdgeG st.graph a b → b ∈ names

theorem GraphWF.empty (names : List String) : GraphWF ⟨[], []⟩ names := by
  refine ⟨?_, ?_, ?_, ?_, ?_⟩
  · simp [dictKeysG]
  · intro x
    simp [adjGet, dictGetG]
  · intro m
    simp [inKeysList, degGet, dictGetG]
  · intro a b h
    simp [EdgeG, adjGet, dictGetG] at h
  · intro a b h
    simp [EdgeG, adjGet, dictGetG] at h

theorem GraphWF.addEdgePres {st : SortGraph} {names : List String}
    (h : GraphWF st names) {a b : String} (ha : a ∈ names) (hb : b ∈ names) :
    GraphWF (addEdge st a b) names := by
  refine ⟨?_, ?_, ?_, ?_, ?_⟩
  · rw [show (addEdge st a b).graph = adjAdd st.graph a b from rfl, adjAdd_eq]
    exact dictKeysG_nodup_dictInsertG h.keys_nodup _ _
  · intro x
    rw [show (addEdge st a b).graph = adjAdd st.graph a b from rfl,
      adjGet_adjAdd]
    by_cases hx : a = x
    · subst hx
      by_cases hcur : b ∈ adjGet st.graph a <;>
        simp [hcur, h.adj_nodup a, List.nodup_append]
    · simp [hx, h.adj_nodup x]
  · intro m
    rw [show (addEdge st a b).graph = adjAdd st.graph a b from rfl,
      show (addEdge st a b).indeg
        = degSet st.indeg b (degGet st.indeg b + 1) from rfl, degGet_degSet]
    by_cases hm : b = m
    · subst hm
      have h1 := inCnt_adjAdd_eq st.graph a b
      have h2 := h.slack b
      rw [if_pos rfl]
      omega
    · rw [if_neg hm, inCnt_adjAdd_ne st.graph a b m (fun hh => hm hh.symm)]
      exact h.slack m
  · intro x y hxy
    rw [show (addEdge st a b).graph = adjAdd st.graph a b from rfl] at hxy
    rcases (EdgeG_adjAdd st.graph a b x y).mp hxy with ⟨rfl, rfl⟩ | hxy
    · exact ha
    · exact h.edge_src _ _ hxy
  · intro x y hxy
    rw [show (addEdge st a b).graph = adjAdd st.graph a b from rfl] at hxy
    rcases (EdgeG_adjAdd st.graph a b x y).mp hxy with ⟨rfl, rfl⟩ | hxy
    · exact hb
    · exact h.edge_dst _ _ hxy

theorem GraphWF.depStepPres {n2q : List (String × ASTObject)}
    {d2o : List (String × String)} {gh : Bool} {object_name : String}
    {st : SortGraph} (h : GraphWF st (dictKeysG n2q))
    (hobj : object_name ∈ dictKeysG n2q) (dep : String) :
    GraphWF (depStep n2q d2o gh object_name st dep) (dictKeysG n2q) := by
  unfold depStep
  by_cases h1 : (dictGetG n2q dep).isSome
  · rw [if_pos h1]
    exact h.addEdgePres (dictGetG_isSome_iff_mem_keys.mp h1) hobj
  · rw [if_neg h1]
    cases hd : dictGetG d2o dep with
    | none => exact h
    | some grant_obj_name =>
      dsimp only
      split
      next hcond => exact h.addEdgePres (dictGetG_isSome_iff_mem_keys.mp hcond.2.1) hobj
      next => exact h

theorem GraphWF.depsFoldPres {n2q : List (String × ASTObject)}
    {d2o : List (String × String)} {gh : Bool} {object_name : String}
    {st : SortGraph} (h : GraphWF st (dictKeysG n2q))
    (hobj : object_name ∈ dictKeysG n2q) (deps : List String) :
    GraphWF (deps.foldl (depStep n2q d2o gh object_name) st) (dictKeysG n2q) := by
  induction deps generalizing st with
  | nil => exact h
  | cons d ds ih => exact ih (h.depStepPres hobj d)

/-- Keys never disappear from a dictionary. -/
theorem mem_dictKeysG_dictInsertG {α : Type} {m : List (String × α)}
    {k : String} (h : k ∈ dictKeysG m) (k' : String) (v : α) :
    k ∈ dictKeysG (dictInsertG m k' v) := by
  rw [dictKeysG_dictInsertG]
  by_cases hk : k' ∈ dictKeysG m <;> simp [hk, h]

/-- A named query of the input ends up as a key of `name_to_query`. -/
theorem mem_keys_nameToQuery {queries : List ASTObject} {q : ASTObject}
    (hq : q ∈ queries) (hname : getObjectName q ≠ "") :
    getObjectName q ∈ dictKeysG (nameToQuery queries) := by
  have hmono : ∀ (l : List ASTObject) (m0 : List (String × ASTObject)),
      getObjectName q ∈ dictKeysG m0 →
      getObjectName q ∈ dictKeysG (l.foldl
        (fun m r => if getObjectName r ≠ "" then dictInsertG m (getObjectName r) r else m) m0) := by
    intro l
    induction l with
    | nil => exact fun m0 h => h
    | cons x xs ih =>
      intro m0 h
      simp only [List.foldl_cons]
      apply ih
      by_cases hx : getObjectName x ≠ ""
      · rw [if_pos hx]
        exact mem_dictKeysG_dictInsertG h _ _
      · rw [if_neg hx]
        exact h
  unfold nameToQuery
  suffices hgen : ∀ (l : List ASTObject) (m0 : List (String × ASTObject)), q ∈ l →
      getObjectName q ∈ dictKeysG (l.foldl
        (fun m r => if getObjectName r ≠ "" then dictInsertG m (getObjectName r) r else m) m0) by
    exact hgen queries [] hq
  intro l
  induction l with
  | nil =>
    intro m0 h
    cases h
  | cons x xs ih =>
    intro m0 hmem
    rcases List.mem_cons.mp hmem with rfl | hx
    · simp only [List.foldl_cons, if_pos hname]
      apply hmono
      rw [dictKeysG_dictInsertG]
      by_cases hk : getObjectName q ∈ dictKeysG m0 <;> simp [hk]
    · simp only [List.foldl_cons]
      exact ih _ hx

theorem buildGraphON_wf (queries : List ASTObject) (gh : Bool) :
    GraphWF (onGraph queries gh) (dictKeysG (nameToQuery queries)) := by
  unfold onGraph buildGraphON
  suffices hgen : ∀ (l : List ASTObject) (st : SortGraph),
      (∀ q ∈ l, q ∈ queries) → GraphWF st (dictKeysG (nameToQuery queries)) →
      GraphWF (l.foldl (addEdgesForQuery (nameToQuery queries)
        (depToObject queries gh) gh) st) (dictKeysG (nameToQuery queries)) by
    exact hgen queries ⟨[], []⟩ (fun q h => h) (GraphWF.empty _)
  intro l
  induction l with
  | nil => exact fun st _ h => h
  | cons x xs ih =>
    intro st hsub h
    simp only [List.foldl_cons]
    apply ih _ (fun q hq => hsub q (List.mem_cons_of_mem _ hq))
    unfold addEdgesForQuery
    by_cases hx : getObjectName x ≠ ""
    · rw [if_pos hx]
      exact h.depsFoldPres (mem_keys_nameToQuery (hsub x (by simp)) hx) _
    · rw [if_neg hx]
      exact h

/-! Edges only accumulate during construction, and a resolvable dependency's
edge is present in the final graph. -/

theorem EdgeG_mono_addEdge {st : SortGraph} {a b x y : String}
    (h : EdgeG st.graph x y) : EdgeG (addEdge st a b).graph x y := by
  rw [show (addEdge st a b).graph = adjAdd st.graph a b from rfl]
  exact (EdgeG_adjAdd st.graph a b x y).mpr (Or.inr h)

theorem EdgeG_addEdge_self (st : SortGraph) (a b : String) :
    EdgeG (addEdge st a b).graph a b := by
  rw [show (addEdge st a b).graph = adjAdd st.graph a b from rfl]
  exact (EdgeG_adjAdd st.graph a b a b).mpr (Or.inl ⟨rfl, rfl⟩)

theorem EdgeG_mono_depStep {n2q : List (String × ASTObject)}
    {d2o : List (String × String)} {gh : Bool} {onm : String} {st : SortGraph}
    {dep x y : String} (h : EdgeG st.graph x y) :
    EdgeG (depStep n2q d2o gh onm st dep).graph x y := by
  unfold depStep
  by_cases h1 : (dictGetG n2q dep).isSome
  · rw [if_pos h1]
    exact EdgeG_mono_addEdge h
  · rw [if_neg h1]
    cases hd : dictGetG d2o dep with
    | none => exact h
    | some grant_obj_name =>
      dsimp only
      split
      · exact EdgeG_mono_addEdge h
      · exact h

theorem EdgeG_mono_depsFold {n2q : List (String × ASTObject)}
    {d2o : List (String × String)} {gh : Bool} {onm : String}
    (deps : List String) {st : SortGraph} {x y : String}
    (h : EdgeG st.graph x y) :
    EdgeG ((deps.foldl (depStep n2q d2o gh onm) st).graph) x y := by
  induction deps generalizing st with
  | nil => exact h
  | cons d ds ih => exact ih (EdgeG_mono_depStep h)

theorem EdgeG_mono_addEdgesForQuery {n2q : List (String × ASTObject)}
    {d2o : List (String × String)} {gh : Bool} {st : SortGraph}
    {q : ASTObject} {x y : String} (h : EdgeG st.graph x y) :
    EdgeG ((addEdgesForQuery n2q d2o gh st q).graph) x y := by
  unfold addEdgesForQuery
  by_cases hn : getObjectName q ≠ ""
  · rw [if_pos hn]
    exact EdgeG_mono_depsFold _ h
  · rw [if_neg hn]
    exact h

theorem EdgeG_mono_queriesFold {n2q : List (String × ASTObject)}
    {d2o : List (String × String)} {gh : Bool} (l : List ASTObject)
    {st : SortGraph} {x y : String} (h : EdgeG st.graph x y) :
    EdgeG ((l.foldl (addEdgesForQuery n2q d2o gh) st).graph) x y := by
  induction l generalizing st with
  | nil => exact h
  | cons r rs ih => exact ih (EdgeG_mono_addEdgesForQuery h)

theorem edge_present_depsFold {n2q : List (String × ASTObject)}
    {d2o : List (String × String)} {gh : Bool} {onm : String}
    (deps : List String) (st : SortGraph) {dep : String} (hdep : dep ∈ deps)
    (hsome : (dictGetG n2q dep).isSome) :
    EdgeG ((deps.foldl (depStep n2q d2o gh onm) st).graph) dep onm := by
  induction deps generalizing st with
  | nil => cases hdep
  | cons d ds ih =>
    rcases List.mem_cons.mp hdep with rfl | hd
    · simp only [List.foldl_cons]
      apply EdgeG_mono_depsFold
      unfold depStep
      rw [if_pos hsome]
      exact EdgeG_addEdge_self st dep onm
    · simp only [List.foldl_cons]
      exact ih _ hd

/-- Every resolvable dependency of a named query yields an edge
`dep → owner` in the built graph. -/
theorem edge_present_on (queries : List ASTObject) (gh : Bool) {q : ASTObject}
    (hq : q ∈ queries) (hname : getObjectName q ≠ "") {dep : String}
    (hdep : dep ∈ q.dependencies)
    (hsome : (dictGetG (nameToQuery queries) dep).isSome) :
    EdgeG (onGraph queries gh).graph dep (getObjectName q) := by
  unfold onGraph buildGraphON
  suffices hgen : ∀ (l : List ASTObject) (st : SortGraph), q ∈ l →
      EdgeG ((l.foldl (addEdgesForQuery (nameToQuery queries)
        (depToObject queries gh) gh) st).graph) dep (getObjectName q) by
    exact hgen queries ⟨[], []⟩ hq
  intro l
  induction l with
  | nil =>
    intro st h
    cases h
  | cons x xs ih =>
    intro st hmem
    rcases List.mem_cons.mp hmem with rfl | hx
    · simp only [List.foldl_cons]
      apply EdgeG_mono_queriesFold
      unfold addEdgesForQuery
      rw [if_pos hname]
      exact edge_present_depsFold _ _ hdep hsome
    · simp only [List.foldl_cons]
      exact ih _ hx

/-! The neighbor-processing fold of the Kahn loop. -/

theorem processNeighbors_deg (nbrs : List String) (indeg : List (String × Int))
    (ps : List String) (hnodup : nbrs.Nodup) (n : String) :
    degGet (nbrs.foldl processNeighbor (indeg, ps)).1 n
      = degGet indeg n - (if n ∈ nbrs then 1 else 0) := by
  induction nbrs generalizing indeg ps with
  | nil => simp
  | cons m ms ih =>
    simp only [List.foldl_cons]
    have hstep : processNeighbor (indeg, ps) m
        = (degSet indeg m (degGet indeg m - 1),
           if degGet indeg m - 1 = 0 then ps ++ [m] else ps) := rfl
    rw [hstep, ih _ _ (List.nodup_cons.mp hnodup).2, degGet_degSet]
    have hm : m ∉ ms := (List.nodup_cons.mp hnodup).1
    by_cases hnm : m = n
    · subst hnm
      simp [hm]
    · have hnm' : ¬n = m := fun h => hnm h.symm
      simp only [if_neg hnm, List.mem_cons]
      by_cases hn : n ∈ ms <;> simp [hn, hnm']

theorem processNeighbors_pushes (nbrs : List String)
    (indeg : List (String × Int)) (ps : List String) (hnodup : nbrs.Nodup) :
    (nbrs.foldl processNeighbor (indeg, ps)).2
      = ps ++ nbrs.filter (fun m => decide (degGet indeg m - 1 = 0)) := by
  induction nbrs generalizing indeg ps with
  | nil => simp
  | cons m ms ih =>
    simp only [List.foldl_cons]
    have hstep : processNeighbor (indeg, ps) m
        = (degSet indeg m (degGet indeg m - 1),
           if degGet indeg m - 1 = 0 then ps ++ [m] else ps) := rfl
    rw [hstep, ih _ _ (List.nodup_cons.mp hnodup).2]
    have hm : m ∉ ms := (List.nodup_cons.mp hnodup).1
    have hfilter : ms.filter (fun x => decide (degGet (degSet indeg m (degGet indeg m - 1)) x - 1 = 0))
        = ms.filter (fun x => decide (degGet indeg x - 1 = 0)) := by
      apply List.filter_congr
      intro x hx
      have hx' : ¬m = x := by
        intro h
        rw [h] at hm
        exact hm hx
      rw [degGet_degSet, if_neg hx']
    rw [hfilter, List.filter_cons]
    by_cases hd : degGet indeg m - 1 = 0 <;> simp [hd]

/-- Completeness of in-degree accounting: when the initial degree of `m` is
exactly the number of already-sorted in-neighbors, every in-neighbor of `m`
is already sorted. -/
theorem in_neighbors_complete {g : List (String × List String)}
    {deg0 : List (String × Int)} {names : List String}
    (hwf : GraphWF ⟨g, deg0⟩ names) {acc : List String} (hnodup : acc.Nodup)
    {m : String}
    (heq : degGet deg0 m
      = ((acc.filter fun a => decide (EdgeG g a m)).length : Int)) :
    ∀ a, EdgeG g a m → a ∈ acc := by
  intro a ha
  have hAnodup : (acc.filter fun a => decide (EdgeG g a m)).Nodup :=
    hnodup.filter _
  have hAsub : (acc.filter fun a => decide (EdgeG g a m)) ⊆ inKeysList g m := by
    intro x hx
    have := (List.mem_filter.mp hx).2
    exact EdgeG_mem_inKeysList (by simpa using this)
  have hslack : ((inKeysList g m).length : Int) ≤ degGet deg0 m := hwf.slack m
  have hlen : (inKeysList g m).length
      ≤ (acc.filter fun a => decide (EdgeG g a m)).length := by omega
  have hsubperm := List.subperm_of_subset hAnodup hAsub
  have hperm := hsubperm.perm_of_length_le hlen
  have hmemIn : a ∈ inKeysList g m := EdgeG_mem_inKeysList ha
  have : a ∈ acc.filter fun a => decide (EdgeG g a m) :=
    hperm.mem_iff.mpr hmemIn
  exact (List.mem_filter.mp this).1

/-- Master invariant of the Kahn loop: starting from a state in which
(1) sorted output and queue are disjoint and duplicate-free, (2) all their
members are node names, (3) the in-degree of every node equals its initial
in-degree minus its sorted in-neighbors, (4) every sorted or queued node has
non-positive in-degree, (5) every queued node has all in-neighbors sorted,
and (6) the sorted output is topologically ordered, the loop returns a
duplicate-free list of names that is topologically ordered. -/
theorem kahn_loop_inv (g : List (String × List String))
    (deg0 : List (String × Int)) (names : List String)
    (hwf : GraphWF ⟨g, deg0⟩ names) :
    ∀ (fuel : Nat) (queue : List String) (indeg : List (String × Int))
      (acc : List String),
      (acc ++ queue).Nodup →
      (∀ n ∈ acc ++ queue, n ∈ names) →
      (∀ n, degGet indeg n
        = degGet deg0 n - ((acc.filter fun a => decide (EdgeG g a n)).length : Int)) →
      (∀ n ∈ acc ++ queue, degGet indeg n ≤ 0) →
      (∀ b ∈ queue, ∀ a, EdgeG g a b → a ∈ acc) →
      (∀ a b, EdgeG g a b → b ∈ acc →
        a ∈ acc ∧ acc.indexOf a < acc.indexOf b) →
      (kahnLoop fuel queue indeg g acc).Nodup ∧
      (∀ n ∈ kahnLoop fuel queue indeg g acc, n ∈ names) ∧
      (∀ a b, EdgeG g a b → b ∈ kahnLoop fuel queue indeg g acc →
        a ∈ kahnLoop fuel queue indeg g acc ∧
        (kahnLoop fuel queue indeg g acc).indexOf a
          < (kahnLoop fuel queue indeg g acc).indexOf b) := by
  intro fuel
  induction fuel with
  | zero =>
    intro queue indeg acc h1 h2 h3 h6 h4 h5
    refine ⟨(List.nodup_append.mp h1).1, ?_, ?_⟩
    · intro n hn
      exact h2 n (List.mem_append_left _ hn)
    · exact h5
  | succ fuel ih =>
    intro queue indeg acc h1 h2 h3 h6 h4 h5
    cases queue with
    | nil =>
      refine ⟨(List.nodup_append.mp h1).1, ?_, ?_⟩
      · intro n hn
        exact h2 n (List.mem_append_left _ hn)
      · exact h5
    | cons current rest =>
      have hnbrs_nodup : (adjGet g current).Nodup := hwf.adj_nodup current
      have hdegF := processNeighbors_deg (adjGet g current) indeg [] hnbrs_nodup
      have hpushF := processNeighbors_pushes (adjGet g current) indeg [] hnbrs_nodup
      rw [List.nil_append] at hpushF
      have h1' : ((acc ++ [current]) ++ rest).Nodup := by
        rw [List.append_assoc, List.singleton_append]
        exact h1
      have hcur_not_acc : current ∉ acc := by
        have hd := (List.nodup_append.mp h1).2.2
        intro hmem
        exact hd hmem (List.mem_cons_self _ _)
      have hpush_mem : ∀ m ∈ (adjGet g current).filter
          (fun m => decide (degGet indeg m - 1 = 0)),
          m ∈ adjGet g current ∧ degGet indeg m = 1 := by
        intro m hm
        have h := List.mem_filter.mp hm
        refine ⟨h.1, ?_⟩
        have := of_decide_eq_true h.2
        omega
      have hpush_fresh : ∀ m ∈ (adjGet g current).filter
          (fun m => decide (degGet indeg m - 1 = 0)),
          m ∉ acc ++ current :: rest := by
        intro m hm hmem
        have := h6 m hmem
        have := (hpush_mem m hm).2
        omega
      have hC : ∀ n, ((acc ++ [current]).filter fun a => decide (EdgeG g a n)).length
          = (acc.filter fun a => decide (EdgeG g a n)).length
            + (if n ∈ adjGet g current then 1 else 0) := by
        intro n
        rw [List.filter_append, List.length_append, List.filter_singleton]
        by_cases he : n ∈ adjGet g current
        · have he' : EdgeG g current n := he
          simp [he, decide_eq_true he']
        · have he' : ¬EdgeG g current n := he
          simp [he, decide_eq_false he']
      have hdeg' : ∀ n, degGet ((adjGet g current).foldl processNeighbor (indeg, [])).1 n
          = degGet deg0 n
            - (((acc ++ [current]).filter fun a => decide (EdgeG g a n)).length : Int) := by
        intro n
        rw [hdegF n, h3 n, hC n]
        push_cast
        by_cases hn : n ∈ adjGet g current <;> simp [hn] <;> omega
      have hnodup' : ((acc ++ [current]) ++ (rest ++ (adjGet g current).filter
          (fun m => decide (degGet indeg m - 1 = 0)))).Nodup := by
        rw [List.nodup_append]
        refine ⟨(List.nodup_append.mp h1').1, ?_, ?_⟩
        · rw [List.nodup_append]
          refine ⟨(List.nodup_append.mp h1').2.1, hnbrs_nodup.filter _, ?_⟩
          intro x hx hxp
          exact hpush_fresh x hxp
            (List.mem_append_right _ (List.mem_cons_of_mem _ hx))
        · intro x hx hxq
          rcases List.mem_append.mp hxq with hr | hp
          · exact (List.nodup_append.mp h1').2.2 hx hr
          · apply hpush_fresh x hp
            rcases List.mem_append.mp hx with ha | hc
            · exact List.mem_append_left _ ha
            · rcases List.mem_singleton.mp hc with rfl
              exact List.mem_append_right _ (List.mem_cons_self _ _)
      have hnames' : ∀ n ∈ (acc ++ [current]) ++ (rest ++ (adjGet g current).filter
          (fun m => decide (degGet indeg m - 1 = 0))), n ∈ names := by
        intro n hn
        rcases List.mem_append.mp hn with hl | hr
        · rcases List.mem_append.mp hl with ha | hc
          · exact h2 n (List.mem_append_left _ ha)
          · rcases List.mem_singleton.mp hc with rfl
            exact h2 n (List.mem_append_right _ (List.mem_cons_self _ _))
        · rcases List.mem_append.mp hr with hrest | hp
          · exact h2 n (List.mem_append_right _ (List.mem_cons_of_mem _ hrest))
          · exact hwf.edge_dst current n (hpush_mem n hp).1
      have hle' : ∀ n ∈ (acc ++ [current]) ++ (rest ++ (adjGet g current).filter
          (fun m => decide (degGet indeg m - 1 = 0))),
          degGet ((adjGet g current).foldl processNeighbor (indeg, [])).1 n ≤ 0 := by
        intro n hn
        rw [hdegF n]
        rcases List.mem_append.mp hn with hl | hr
        · rcases List.mem_append.mp hl with ha | hc
          · have := h6 n (List.mem_append_left _ ha)
            by_cases hnn : n ∈ adjGet g current <;> simp [hnn] <;> omega
          · have hnc := List.mem_singleton.mp hc
            have := h6 n (by rw [hnc]; exact List.mem_append_right _ (List.mem_cons_self _ _))
            by_cases hnn : n ∈ adjGet g current <;> simp [hnn] <;> omega
        · rcases List.mem_append.mp hr with hrest | hp
          · have := h6 n (List.mem_append_right _ (List.mem_cons_of_mem _ hrest))
            by_cases hnn : n ∈ adjGet g current <;> simp [hnn] <;> omega
          · have h1p := (hpush_mem n hp).2
            have h2p := (hpush_mem n hp).1
            simp [h2p]
            omega
      have hready' : ∀ b ∈ rest ++ (adjGet g current).filter
          (fun m => decide (degGet indeg m - 1 = 0)),
          ∀ a, EdgeG g a b → a ∈ acc ++ [current] := by
        intro b hb a hab
        rcases List.mem_append.mp hb with hrest | hp
        · exact List.mem_append_left _ (h4 b (List.mem_cons_of_mem _ hrest) a hab)
        · have hdb := (hpush_mem b hp).2
          have hmemb := (hpush_mem b hp).1
          have hfold : degGet ((adjGet g current).foldl processNeighbor (indeg, [])).1 b
              = 0 := by
            rw [hdegF b]
            simp [hmemb]
            omega
          have hdd := hdeg' b
          have h0 : degGet deg0 b
              = (((acc ++ [current]).filter fun a => decide (EdgeG g a b)).length : Int) := by
            omega
          exact in_neighbors_complete hwf (List.nodup_append.mp h1').1 h0 a hab
      have htopo' : ∀ a b, EdgeG g a b → b ∈ acc ++ [current] →
          a ∈ acc ++ [current]
            ∧ (acc ++ [current]).indexOf a < (acc ++ [current]).indexOf b := by
        intro a b hab hb
        rcases List.mem_append.mp hb with hba | hbc
        · obtain ⟨haa, hlt⟩ := h5 a b hab hba
          refine ⟨List.mem_append_left _ haa, ?_⟩
          rw [List.indexOf_append_of_mem haa, List.indexOf_append_of_mem hba]
          exact hlt
        · rcases List.mem_singleton.mp hbc with rfl
          have haa : a ∈ acc := h4 b (List.mem_cons_self _ _) a hab
          refine ⟨List.mem_append_left _ haa, ?_⟩
          rw [List.indexOf_append_of_mem haa,
            List.indexOf_append_of_not_mem hcur_not_acc, List.indexOf_cons_self]
          have := List.indexOf_lt_length.mpr haa
          omega
      have hunf : kahnLoop (fuel + 1) (current :: rest) indeg g acc
          = kahnLoop fuel
              (rest ++ ((adjGet g current).foldl processNeighbor (indeg, [])).2)
              ((adjGet g current).foldl processNeighbor (indeg, [])).1 g
              (acc ++ [current]) := rfl
      rw [hunf, hpushF]
      exact ih _ _ _ hnodup' hnames' hdeg' hle' hready' htopo'

/-! Exact shape of `name_to_query` when the named queries have pairwise
distinct qualified names, and index transport through the output assembly. -/

/-- Inserting a fresh key appends the binding. -/
theorem dictInsertG_fresh {α : Type} (m : List (String × α)) (k : String)
    (v : α) (h : k ∉ dictKeysG m) : dictInsertG m k v = m ++ [(k, v)] := by
  induction m with
  | nil => rfl
  | cons kv rest ih =>
    obtain ⟨k0, v0⟩ := kv
    simp only [dictKeysG, List.map_cons, List.mem_cons] at h
    push_neg at h
    simp only [dictInsertG]
    rw [if_neg (fun he => h.1 he.symm)]
    rw [ih (by simpa [dictKeysG] using h.2)]
    rfl

/-- With duplicate-free names, `name_to_query` is exactly the named queries
paired with their names, in input order. -/
theorem nameToQuery_eq_filter (queries : List ASTObject)
    (hdn : ((queries.filter fun q => decide (getObjectName q ≠ "")).map
      getObjectName).Nodup) :
    nameToQuery queries
      = (queries.filter fun q => decide (getObjectName q ≠ "")).map
          (fun q => (getObjectName q, q)) := by
  have haux : ∀ (l : List ASTObject) (m0 : List (String × ASTObject)),
      ((l.filter fun q => decide (getObjectName q ≠ "")).map getObjectName).Nodup →
      (∀ r ∈ l, getObjectName r ≠ "" → getObjectName r ∉ dictKeysG m0) →
      l.foldl (fun m r =>
          if getObjectName r ≠ "" then dictInsertG m (getObjectName r) r else m) m0
        = m0 ++ (l.filter fun q => decide (getObjectName q ≠ "")).map
            (fun q => (getObjectName q, q)) := by
    intro l
    induction l with
    | nil =>
      intro m0 _ _
      simp
    | cons x xs ih =>
      intro m0 hnd hdis
      simp only [List.foldl_cons]
      by_cases hx : getObjectName x ≠ ""
      · rw [if_pos hx]
        have hfilter : (x :: xs).filter (fun q => decide (getObjectName q ≠ ""))
            = x :: xs.filter (fun q => decide (getObjectName q ≠ "")) := by
          rw [List.filter_cons, if_pos (by simpa using hx)]
        rw [hfilter, List.map_cons] at hnd
        have hnd' := List.nodup_cons.mp hnd
        have hdis' : ∀ r ∈ xs, getObjectName r ≠ "" →
            getObjectName r ∉ dictKeysG (m0 ++ [(getObjectName x, x)]) := by
          intro r hr hrname hcontra
          have hkeys : dictKeysG (m0 ++ [(getObjectName x, x)])
              = dictKeysG m0 ++ [getObjectName x] := by simp [dictKeysG]
          rw [hkeys] at hcontra
          rcases List.mem_append.mp hcontra with hm | hs
          · exact hdis r (List.mem_cons_of_mem _ hr) hrname hm
          · have heq := List.mem_singleton.mp hs
            apply hnd'.1
            rw [← heq]
            exact List.mem_map_of_mem _
              (List.mem_filter.mpr ⟨hr, by simpa using hrname⟩)
        rw [dictInsertG_fresh _ _ _ (hdis x (List.mem_cons_self _ _) hx)]
        rw [ih (m0 ++ [(getObjectName x, x)]) hnd'.2 hdis']
        rw [hfilter, List.map_cons, List.append_assoc]
        rfl
      · rw [if_neg hx]
        have hfilter : (x :: xs).filter (fun q => decide (getObjectName q ≠ ""))
            = xs.filter (fun q => decide (getObjectName q ≠ "")) := by
          rw [List.filter_cons, if_neg (by simpa using hx)]
        rw [hfilter] at hnd ⊢
        exact ih m0 hnd (fun r hr h1 => hdis r (List.mem_cons_of_mem _ hr) h1)
  unfold nameToQuery
  apply haux queries [] hdn
  intro r _ _ h
  simp [dictKeysG] at h

theorem nameToQuery_keys_eq (queries : List ASTObject)
    (hdn : ((queries.filter fun q => decide (getObjectName q ≠ "")).map
      getObjectName).Nodup) :
    dictKeysG (nameToQuery queries)
      = (queries.filter fun q => decide (getObjectName q ≠ "")).map getObjectName := by
  rw [nameToQuery_eq_filter queries hdn]
  unfold dictKeysG
  rw [List.map_map]
  rfl

/-- With duplicate-free names, each named query is looked up to itself. -/
theorem nameToQuery_lookup (queries : List ASTObject)
    (hdn : ((queries.filter fun q => decide (getObjectName q ≠ "")).map
      getObjectName).Nodup) {q : ASTObject}
    (hq : q ∈ queries) (hname : getObjectName q ≠ "") :
    dictGetG (nameToQuery queries) (getObjectName q) = some q := by
  have hsome : (dictGetG (nameToQuery queries) (getObjectName q)).isSome :=
    dictGetG_isSome_iff_mem_keys.mpr (mem_keys_nameToQuery hq hname)
  obtain ⟨v, hv⟩ := Option.isSome_iff_exists.mp hsome
  have hmem := dictGetG_eq_some_mem hv
  rw [nameToQuery_eq_filter queries hdn] at hmem
  obtain ⟨r, hr, hpair⟩ := List.mem_map.mp hmem
  have h1 : getObjectName r = getObjectName q := congrArg Prod.fst hpair
  have h2 : r = v := congrArg Prod.snd hpair
  have hqf : q ∈ queries.filter (fun q => decide (getObjectName q ≠ "")) :=
    List.mem_filter.mpr ⟨hq, by simpa using hname⟩
  have h3 : r = q := List.inj_on_of_nodup_map hdn hr hqf h1
  rw [hv, ← h2, h3]

/-- A `name_to_query` lookup result carries the looked-up name. -/
theorem nameToQuery_lookup_name (queries : List ASTObject)
    (hdn : ((queries.filter fun q => decide (getObjectName q ≠ "")).map
      getObjectName).Nodup) {n : String} {v : ASTObject}
    (h : dictGetG (nameToQuery queries) n = some v) : getObjectName v = n := by
  have hmem := dictGetG_eq_some_mem h
  rw [nameToQuery_eq_filter queries hdn] at hmem
  obtain ⟨r, hr, hpair⟩ := List.mem_map.mp hmem
  have h1 : getObjectName r = n := congrArg Prod.fst hpair
  have h2 : r = v := congrArg Prod.snd hpair
  rw [← h2, h1]

theorem filterMap_eq_map_getD {α β : Type} (f : α → Option β) (d : β) :
    ∀ (l : List α), (∀ a ∈ l, (f a).isSome) →
      l.filterMap f = l.map (fun a => (f a).getD d) := by
  intro l
  induction l with
  | nil =>
    intro _
    rfl
  | cons a t ih =>
    intro h
    obtain ⟨b, hb⟩ := Option.isSome_iff_exists.mp (h a (List.mem_cons_self _ _))
    rw [List.filterMap_cons_some hb, List.map_cons]
    simp only [hb, Option.getD_some]
    rw [ih (fun x hx => h x (List.mem_cons_of_mem _ hx))]

theorem indexOf_map_inj {α β : Type} [DecidableEq α] [DecidableEq β]
    (f : α → β) : ∀ (l : List α) (a : α), a ∈ l →
      (∀ x ∈ l, f x = f a → x = a) →
      (l.map f).indexOf (f a) = l.indexOf a := by
  intro l
  induction l with
  | nil =>
    intro a ha
    cases ha
  | cons x t ih =>
    intro a ha hinj
    by_cases hxa : x = a
    · subst hxa
      rw [List.map_cons, List.indexOf_cons_self, List.indexOf_cons_self]
    · have hfx : f x ≠ f a := fun h => hxa (hinj x (List.mem_cons_self _ _) h)
      have hat : a ∈ t := by
        rcases List.mem_cons.mp ha with rfl | h
        · exact absurd rfl hxa
        · exact h
      rw [List.map_cons, List.indexOf_cons_ne _ hfx, List.indexOf_cons_ne _ hxa]
      exact congrArg Nat.succ
        (ih a hat (fun y hy => hinj y (List.mem_cons_of_mem _ hy)))

/-- Total version of the `name_to_query` lookup used to express the sorted
prefix of the output as a `map`. -/
def lookupName (queries : List ASTObject) (n : String) : ASTObject :=
  (dictGetG (nameToQuery queries) n).getD { command := "" }

/-- C2 (amended): on the default name-driven path, when the named queries
have pairwise distinct qualified names and the sorter succeeds, the output is
a permutation of the input in which every named query appears strictly after
any other named query of the list whose qualified name it lists as a
dependency. -/
theorem sorter_perm_and_topological (queries : List ASTObject) (gh : Bool)
    (out : List ASTObject)
    (hdn : ((queries.filter fun q => decide (getObjectName q ≠ "")).map
      getObjectName).Nodup)
    (hok : sort_queries queries true gh = Except.ok out) :
    List.Perm out queries
    ∧ ∀ q ∈ queries, ∀ q' ∈ queries,
        getObjectName q ≠ "" → getObjectName q' ≠ "" →
        getObjectName q' ∈ q.dependencies →
        out.indexOf q' < out.indexOf q := by
  have hok' : sortByObjectNames queries gh = Except.ok out := hok
  unfold sortByObjectNames at hok'
  by_cases hlen : (sortedNamesON queries gh).length
      ≠ (dictKeysG (nameToQuery queries)).length
  · rw [if_pos hlen] at hok'
    exact Except.noConfusion hok'
  · rw [if_neg hlen] at hok'
    push_neg at hlen
    have hout := (Except.ok.inj hok').symm
    have hkeys_eq := nameToQuery_keys_eq queries hdn
    have hnames_nodup : (dictKeysG (nameToQuery queries)).Nodup := by
      rw [hkeys_eq]
      exact hdn
    have hwf' : GraphWF ⟨(onGraph queries gh).graph, (onGraph queries gh).indeg⟩
        (dictKeysG (nameToQuery queries)) := buildGraphON_wf queries gh
    have hq_deg : ∀ n ∈ onQueue queries gh,
        degGet (onGraph queries gh).indeg n = 0 := by
      intro n hn
      have hn' : n ∈ (dictKeysG (nameToQuery queries)).filter
          (fun n => degGet (onGraph queries gh).indeg n == 0) := hn
      exact beq_iff_eq.mp (List.mem_filter.mp hn').2
    have hkahn : (sortedNamesON queries gh).Nodup
        ∧ (∀ n ∈ sortedNamesON queries gh, n ∈ dictKeysG (nameToQuery queries))
        ∧ (∀ a b, EdgeG (onGraph queries gh).graph a b →
            b ∈ sortedNamesON queries gh →
            a ∈ sortedNamesON queries gh ∧
            (sortedNamesON queries gh).indexOf a
              < (sortedNamesON queries gh).indexOf b) := by
      refine kahn_loop_inv (onGraph queries gh).graph (onGraph queries gh).indeg
        (dictKeysG (nameToQuery queries)) hwf'
        (kahnFuel (onGraph queries gh).indeg (onQueue queries gh).length)
        (onQueue queries gh) (onGraph queries gh).indeg [] ?_ ?_ ?_ ?_ ?_ ?_
      · simpa using hnames_nodup.filter _
      · intro n hn
        rw [List.nil_append] at hn
        exact List.mem_of_mem_filter (show n ∈ (dictKeysG (nameToQuery queries)).filter
          (fun n => degGet (onGraph queries gh).indeg n == 0) from hn)
      · intro n
        simp
      · intro n hn
        exact le_of_eq (hq_deg n (by simpa using hn))
      · intro b hb a hab
        exact in_neighbors_complete hwf' List.nodup_nil
          (by simpa using hq_deg b hb) a hab
      · intro a b _ hb
        exact absurd hb (List.not_mem_nil b)
    obtain ⟨hSnodup, hSsub, hStopo⟩ := hkahn
    have hperm_names : List.Perm (sortedNamesON queries gh)
        (dictKeysG (nameToQuery queries)) :=
      (List.subperm_of_subset hSnodup (fun _ h => hSsub _ h)).perm_of_length_le
        (le_of_eq hlen.symm)
    have hB2 : queries.filter (fun q => decide (getObjectName q ≠ ""
        ∧ getObjectName q ∉ sortedNamesON queries gh)) = [] := by
      apply List.filter_eq_nil.mpr
      intro q hq hcontra
      have h := of_decide_eq_true hcontra
      exact h.2 (hperm_names.mem_iff.mpr (mem_keys_nameToQuery hq h.1))
    have hout2 : out = (sortedNamesON queries gh).filterMap
          (fun n => dictGetG (nameToQuery queries) n)
        ++ queries.filter (fun q => decide (getObjectName q = "")) := by
      rw [hout, hB2]
      simp
    have hsomeAll : ∀ n ∈ sortedNamesON queries gh,
        (dictGetG (nameToQuery queries) n).isSome :=
      fun n hn => dictGetG_isSome_iff_mem_keys.mpr (hSsub n hn)
    have hB1map : (sortedNamesON queries gh).filterMap
          (fun n => dictGetG (nameToQuery queries) n)
        = (sortedNamesON queries gh).map (lookupName queries) := by
      have h := filterMap_eq_map_getD (fun n => dictGetG (nameToQuery queries) n)
        { command := "" } (sortedNamesON queries gh) hsomeAll
      rw [h]
      rfl
    have hFname : ∀ n ∈ sortedNamesON queries gh,
        getObjectName (lookupName queries n) = n := by
      intro n hn
      obtain ⟨v, hv⟩ := Option.isSome_iff_exists.mp (hsomeAll n hn)
      unfold lookupName
      rw [hv]
      exact nameToQuery_lookup_name queries hdn hv
    have hEq2 : (dictKeysG (nameToQuery queries)).map (lookupName queries)
        = queries.filter (fun q => decide (getObjectName q ≠ "")) := by
      rw [hkeys_eq, List.map_map]
      have hpt : ∀ r ∈ queries.filter (fun q => decide (getObjectName q ≠ "")),
          (lookupName queries ∘ getObjectName) r = id r := by
        intro r hr
        have hr1 := List.mem_filter.mp hr
        have hr2 : getObjectName r ≠ "" := by simpa using hr1.2
        show lookupName queries (getObjectName r) = r
        unfold lookupName
        rw [nameToQuery_lookup queries hdn hr1.1 hr2]
        rfl
      rw [List.map_congr_left hpt, List.map_id]
    have hperm : List.Perm out queries := by
      rw [hout2, hB1map]
      have hstep1 : List.Perm
          (List.map (lookupName queries) (sortedNamesON queries gh))
          (queries.filter (fun q => decide (getObjectName q ≠ ""))) := by
        rw [← hEq2]
        exact hperm_names.map _
      have hstep2 : List.Perm
          (queries.filter (fun q => decide (getObjectName q ≠ ""))
            ++ queries.filter (fun q => decide (getObjectName q = ""))) queries := by
        have hnot : (fun q => decide (getObjectName q = ""))
            = (fun q => !(decide (getObjectName q ≠ ""))) := by
          funext r
          simp [decide_not]
        rw [hnot]
        exact List.filter_append_perm _ queries
      exact (hstep1.append_right _).trans hstep2
    refine ⟨hperm, ?_⟩
    intro q hq q' hq' hn hn' hdep
    have hsome' : (dictGetG (nameToQuery queries) (getObjectName q')).isSome :=
      dictGetG_isSome_iff_mem_keys.mpr (mem_keys_nameToQuery hq' hn')
    have hedge : EdgeG (onGraph queries gh).graph (getObjectName q')
        (getObjectName q) := edge_present_on queries gh hq hn hdep hsome'
    have hqS : getObjectName q ∈ sortedNamesON queries gh :=
      hperm_names.mem_iff.mpr (mem_keys_nameToQuery hq hn)
    obtain ⟨hq'S, hidx⟩ := hStopo (getObjectName q') (getObjectName q) hedge hqS
    have hFq : lookupName queries (getObjectName q) = q := by
      unfold lookupName
      rw [nameToQuery_lookup queries hdn hq hn]
      rfl
    have hFq' : lookupName queries (getObjectName q') = q' := by
      unfold lookupName
      rw [nameToQuery_lookup queries hdn hq' hn']
      rfl
    have hinjS : ∀ x ∈ sortedNamesON queries gh, ∀ y ∈ sortedNamesON queries gh,
        lookupName queries x = lookupName queries y → x = y := by
      intro x hx y hy he
      have h1 := hFname x hx
      have h2 := hFname y hy
      rw [← h1, he, h2]
    have hout3 : out = (sortedNamesON queries gh).map (lookupName queries)
        ++ queries.filter (fun q => decide (getObjectName q = "")) := by
      rw [hout2, hB1map]
    have hidxq : out.indexOf q
        = (sortedNamesON queries gh).indexOf (getObjectName q) := by
      have hqB1 : q ∈ (sortedNamesON queries gh).map (lookupName queries) := by
        rw [← hFq]
        exact List.mem_map_of_mem _ hqS
      have htr := indexOf_map_inj (lookupName queries) (sortedNamesON queries gh)
        (getObjectName q) hqS
        (fun x hx he => hinjS x hx (getObjectName q) hqS he)
      rw [hFq] at htr
      rw [hout3, List.indexOf_append_of_mem hqB1, htr]
    have hidxq' : out.indexOf q'
        = (sortedNamesON queries gh).indexOf (getObjectName q') := by
      have hqB1' : q' ∈ (sortedNamesON queries gh).map (lookupName queries) := by
        rw [← hFq']
        exact List.mem_map_of_mem _ hq'S
      have htr' := indexOf_map_inj (lookupName queries) (sortedNamesON queries gh)
        (getObjectName q') hq'S
        (fun x hx he => hinjS x hx (getObjectName q') hq'S he)
      rw [hFq'] at htr'
      rw [hout3, List.indexOf_append_of_mem hqB1', htr']
    rw [hidxq, hidxq']
    exact hidx

/-- Two distinct table actions sharing the qualified name `a`. -/
def dupAC2 : ASTObject :=
  { command := "CREATE TABLE a (x int)", object_name := "a",
    query_type := .base_table }

def dupBC2 : ASTObject :=
  { command := "CREATE TABLE a (y int)", object_name := "a",
    query_type := .base_table }

/-- C2, counterexample: with two distinct actions sharing one qualified name,
the sorter succeeds but silently drops one of them — the output is not a
permutation of the input. -/
theorem sorter_not_permutation_counterexample :
    sort_queries [dupAC2, dupBC2] true true = Except.ok [dupBC2]
      ∧ ¬ List.Perm [dupBC2] [dupAC2, dupBC2] :=
  ⟨rfl, fun h => by simpa using h.length_eq⟩

/-- A table `a` and a view `b` that depends on it, listed dependency-first
reversed. -/
def tblAW2 : ASTObject :=
  { command := "CREATE TABLE a (x int)", object_name := "a",
    query_type := .base_table }

def viewBW2 : ASTObject :=
  { command := "CREATE VIEW b AS SELECT x FROM a", object_name := "b",
    query_type := .view, dependencies := ["a"] }

/-- C2 witness: a concrete two-object sort satisfying the distinct-name
hypothesis, with the dependent view placed after the table it names. -/
theorem sorter_perm_and_topological_witness :
    ((([viewBW2, tblAW2].filter fun q => decide (getObjectName q ≠ "")).map
        getObjectName).Nodup
      ∧ sort_queries [viewBW2, tblAW2] true true = Except.ok [tblAW2, viewBW2])
    ∧ (List.Perm [tblAW2, viewBW2] [viewBW2, tblAW2]
      ∧ ∀ q ∈ [viewBW2, tblAW2], ∀ q' ∈ [viewBW2, tblAW2],
          getObjectName q ≠ "" → getObjectName q' ≠ "" →
          getObjectName q' ∈ q.dependencies →
          [tblAW2, viewBW2].indexOf q' < [tblAW2, viewBW2].indexOf q) :=
  ⟨⟨by decide, by rfl⟩,
    sorter_perm_and_topological [viewBW2, tblAW2] true [tblAW2, viewBW2]
      (by decide) (by rfl)⟩

/-! ## C9: invariances of the content hash

Character-level facts about `upChar` and step characterizations of the
normalizer passes, leading to the provable invariances: whitespace edits that
preserve the collapsed run structure of comment-free text, appended line and
block comments, and case changes. -/

theorem char_toNat_inj {c d : Char} (h : c.toNat = d.toNat) : c = d :=
  Char.ext (UInt32.ext h)

theorem upChar_toNat (c : Char) : (upChar c).toNat
    = if 97 ≤ c.toNat ∧ c.toNat ≤ 122 then c.toNat - 32 else c.toNat := by
  unfold upChar
  by_cases h : 97 ≤ c.toNat ∧ c.toNat ≤ 122
  · rw [if_pos h, if_pos h]
    unfold Char.ofNat
    rw [dif_pos (Or.inl (by omega))]
    rfl
  · rw [if_neg h, if_neg h]

theorem upChar_fix {c : Char} (h : ¬(97 ≤ c.toNat ∧ c.toNat ≤ 122)) :
    upChar c = c := by
  unfold upChar
  rw [if_neg h]

/-- `upChar` moves only lowercase letters, so equality with any character
below `'A'` is unaffected. -/
theorem upChar_eq_iff_lt65 {c d : Char} (hd : d.toNat < 65) :
    upChar c = d ↔ c = d := by
  constructor
  · intro h
    have ht := upChar_toNat c
    rw [h] at ht
    by_cases hc : 97 ≤ c.toNat ∧ c.toNat ≤ 122
    · rw [if_pos hc] at ht
      omega
    · rw [if_neg hc] at ht
      exact (char_toNat_inj ht).symm
  · intro h
    rw [h]
    exact upChar_fix (by omega)

theorem beq_upChar_lit {c d : Char} (hd : d.toNat < 65) :
    (upChar c == d) = (c == d) := by
  rcases Bool.eq_false_or_eq_true (c == d) with hb | hb
  · rw [hb]
    exact beq_iff_eq.mpr ((upChar_eq_iff_lt65 hd).mpr (beq_iff_eq.mp hb))
  · rw [hb]
    refine beq_eq_false_iff_ne.mpr ?_
    intro hcd
    exact (beq_eq_false_iff_ne.mp hb) ((upChar_eq_iff_lt65 hd).mp hcd)

theorem isWsChar_upChar (c : Char) : isWsChar (upChar c) = isWsChar c := by
  unfold isWsChar
  rw [beq_upChar_lit (by decide), beq_upChar_lit (by decide),
    beq_upChar_lit (by decide), beq_upChar_lit (by decide),
    beq_upChar_lit (by decide), beq_upChar_lit (by decide)]

theorem isDelimChar_upChar (c : Char) : isDelimChar (upChar c) = isDelimChar c := by
  unfold isDelimChar
  rw [beq_upChar_lit (by decide), beq_upChar_lit (by decide),
    beq_upChar_lit (by decide)]

theorem upChar_upChar (c : Char) : upChar (upChar c) = upChar c := by
  apply upChar_fix
  rw [upChar_toNat]
  by_cases h : 97 ≤ c.toNat ∧ c.toNat ≤ 122
  · rw [if_pos h]
    omega
  · rw [if_neg h]
    exact h

/-! Step characterizations of the comment-stripping passes. -/

theorem stripLineAux_true_cons (c : Char) (cs : List Char) :
    stripLineAux true (c :: cs)
      = if c = '\n' then '\n' :: stripLineAux false cs
        else stripLineAux true cs := by
  by_cases h : c = '\n'
  · subst h
    simp [stripLineAux]
  · rw [if_neg h]
    simp [stripLineAux, h]

theorem stripLineAux_false_cons (c : Char) (cs : List Char) :
    stripLineAux false (c :: cs)
      = if c = '-' ∧ cs.head? = some '-' then stripLineAux true cs.tail
        else c :: stripLineAux false cs := by
  match cs with
  | [] => simp [stripLineAux]
  | c' :: cs' =>
    by_cases h1 : c = '-'
    · by_cases h2 : c' = '-'
      · subst h1
        subst h2
        simp [stripLineAux]
      · simp [stripLineAux, h1, h2]
    · simp [stripLineAux, h1]

theorem stripBlockAux_none_cons (c : Char) (cs : List Char) :
    stripBlockAux none (c :: cs)
      = if c = '/' ∧ cs.head? = some '*' then stripBlockAux (some []) cs.tail
        else c :: stripBlockAux none cs := by
  match cs with
  | [] => simp [stripBlockAux]
  | c' :: cs' =>
    by_cases h1 : c = '/'
    · by_cases h2 : c' = '*'
      · subst h1
        subst h2
        simp [stripBlockAux]
      · simp [stripBlockAux, h1, h2]
    · simp [stripBlockAux, h1]

theorem stripBlockAux_some_cons (buf : List Char) (c : Char) (cs : List Char) :
    stripBlockAux (some buf) (c :: cs)
      = if c = '*' ∧ cs.head? = some '/' then stripBlockAux none cs.tail
        else stripBlockAux (some (c :: buf)) cs := by
  match cs with
  | [] => simp [stripBlockAux]
  | c' :: cs' =>
    by_cases h1 : c = '*'
    · by_cases h2 : c' = '/'
      · subst h1
        subst h2
        simp [stripBlockAux]
      · simp [stripBlockAux, h1, h2]
    · simp [stripBlockAux, h1]

/-! Substring-membership facts. -/

theorem listContainsSub_nil_sub (l : List Char) :
    listContainsSub [] l = true := by
  induction l with
  | nil => rfl
  | cons c cs ih => simp [listContainsSub]

theorem listContainsSub_of_isPrefixOf {sub l : List Char}
    (h : sub.isPrefixOf l = true) : listContainsSub sub l = true := by
  cases l with
  | nil =>
    cases sub with
    | nil => rfl
    | cons s ss => cases h
  | cons c cs =>
    simp only [listContainsSub, Bool.or_eq_true]
    exact Or.inl h

theorem listContainsSub_cons_of {sub : List Char} {cs : List Char}
    (h : listContainsSub sub cs = true) (c : Char) :
    listContainsSub sub (c :: cs) = true := by
  simp only [listContainsSub, Bool.or_eq_true]
  exact Or.inr h

theorem listContainsSub_append_left {sub x : List Char}
    (h : listContainsSub sub x = true) (r : List Char) :
    listContainsSub sub (x ++ r) = true := by
  induction x with
  | nil =>
    have hsub : sub = [] := by simpa [listContainsSub] using h
    rw [hsub]
    exact listContainsSub_nil_sub _
  | cons c cs ih =>
    simp only [listContainsSub, Bool.or_eq_true] at h
    rcases h with h | h
    · apply listContainsSub_of_isPrefixOf
      have hpre := List.isPrefixOf_iff_prefix.mp h
      exact List.isPrefixOf_iff_prefix.mpr
        (hpre.trans (List.prefix_append (c :: cs) r))
    · exact listContainsSub_cons_of (ih h) c

/-! Pass 1 (`--` line comments): identity on `--`-free text, and an appended
`--` comment with no newline erases exactly the comment. -/

theorem stripLineAux_id {x : List Char}
    (h : listContainsSub ['-', '-'] x = false) :
    stripLineAux false x = x := by
  induction x with
  | nil => rfl
  | cons c cs ih =>
    simp only [listContainsSub, Bool.or_eq_false_iff] at h
    rw [stripLineAux_false_cons]
    have hcond : ¬(c = '-' ∧ cs.head? = some '-') := by
      rintro ⟨rfl, hh⟩
      cases cs with
      | nil => cases hh
      | cons c' cs' =>
        have : c' = '-' := by simpa using hh
        subst this
        simp [List.isPrefixOf] at h
    rw [if_neg hcond, ih h.2]

theorem stripLineAux_true_consume {body : List Char} (h : '\n' ∉ body) :
    stripLineAux true body = [] := by
  induction body with
  | nil => rfl
  | cons c cs ih =>
    have hcn : c ≠ '\n' := by
      intro hc
      apply h
      rw [← hc]
      exact List.mem_cons_self _ _
    rw [stripLineAux_true_cons, if_neg hcn]
    exact ih (fun hm => h (List.mem_cons_of_mem c hm))

theorem stripLineAux_comment_append {x body : List Char}
    (h : listContainsSub ['-', '-'] (x ++ ['-']) = false) (hnl : '\n' ∉ body) :
    stripLineAux false (x ++ '-' :: '-' :: body) = x := by
  induction x with
  | nil =>
    show stripLineAux false ('-' :: '-' :: body) = []
    rw [stripLineAux_false_cons, if_pos (by simp)]
    exact stripLineAux_true_consume hnl
  | cons c cs ih =>
    simp only [List.cons_append, listContainsSub, Bool.or_eq_false_iff] at h
    rw [List.cons_append, stripLineAux_false_cons]
    have hcond : ¬(c = '-' ∧ (cs ++ '-' :: '-' :: body).head? = some '-') := by
      rintro ⟨rfl, hh⟩
      cases cs with
      | nil =>
        simp [List.isPrefixOf] at h
      | cons c' cs' =>
        have : c' = '-' := by simpa using hh
        subst this
        simp [List.isPrefixOf] at h
    rw [if_neg hcond, ih h.2]

/-! Pass 2 (`/* ... */` block comments): identity on `/*`-free text, and an
appended closed block comment is erased exactly. -/

theorem stripBlockAux_id {x : List Char}
    (h : listContainsSub ['/', '*'] x = false) :
    stripBlockAux none x = x := by
  induction x with
  | nil => rfl
  | cons c cs ih =>
    simp only [listContainsSub, Bool.or_eq_false_iff] at h
    rw [stripBlockAux_none_cons]
    have hcond : ¬(c = '/' ∧ cs.head? = some '*') := by
      rintro ⟨rfl, hh⟩
      cases cs with
      | nil => cases hh
      | cons c' cs' =>
        have : c' = '*' := by simpa using hh
        subst this
        simp [List.isPrefixOf] at h
    rw [if_neg hcond, ih h.2]

theorem stripBlockAux_consume {body : List Char}
    (h : listContainsSub ['*', '/'] body = false) :
    ∀ (buf r : List Char),
      stripBlockAux (some buf) (body ++ '*' :: '/' :: r) = stripBlockAux none r := by
  induction body with
  | nil =>
    intro buf r
    show stripBlockAux (some buf) ('*' :: '/' :: r) = stripBlockAux none r
    rw [stripBlockAux_some_cons, if_pos (by simp)]
    rfl
  | cons c cs ih =>
    intro buf r
    simp only [listContainsSub, Bool.or_eq_false_iff] at h
    rw [List.cons_append, stripBlockAux_some_cons]
    have hcond : ¬(c = '*' ∧ (cs ++ '*' :: '/' :: r).head? = some '/') := by
      rintro ⟨rfl, hh⟩
      cases cs with
      | nil =>
        have : '*' = '/' := by simpa using hh
        cases this
      | cons c' cs' =>
        have : c' = '/' := by simpa using hh
        subst this
        simp [List.isPrefixOf] at h
    rw [if_neg hcond]
    exact ih h.2 _ r

theorem stripBlockAux_comment_append {x body : List Char}
    (hx : listContainsSub ['/', '*'] x = false)
    (hb : listContainsSub ['*', '/'] body = false) (r : List Char) :
    stripBlockAux none (x ++ '/' :: '*' :: (body ++ '*' :: '/' :: r))
      = x ++ stripBlockAux none r := by
  induction x with
  | nil =>
    show stripBlockAux none ('/' :: '*' :: (body ++ '*' :: '/' :: r))
      = stripBlockAux none r
    rw [stripBlockAux_none_cons, if_pos (by simp)]
    exact stripBlockAux_consume hb [] r
  | cons c cs ih =>
    simp only [listContainsSub, Bool.or_eq_false_iff] at hx
    rw [List.cons_append, stripBlockAux_none_cons]
    have hcond : ¬(c = '/' ∧ (cs ++ '/' :: '*' :: (body ++ '*' :: '/' :: r)).head?
        = some '*') := by
      rintro ⟨rfl, hh⟩
      cases cs with
      | nil =>
        have : '/' = '*' := by simpa using hh
        cases this
      | cons c' cs' =>
        have : c' = '*' := by simpa using hh
        subst this
        simp [List.isPrefixOf] at hx
    rw [if_neg hcond, ih hx.2]
    rfl

/-! Case folding commutes with every normalizer pass: the comment tokens,
whitespace and delimiter classes are untouched by `upChar`. -/

theorem stripLineAux_map_upChar :
    ∀ (n : Nat) (l : List Char), l.length ≤ n → ∀ (b : Bool),
      stripLineAux b (l.map upChar) = (stripLineAux b l).map upChar := by
  intro n
  induction n with
  | zero =>
    intro l hl b
    have hn : l = [] := List.length_eq_zero.mp (Nat.le_zero.mp hl)
    subst hn
    cases b <;> rfl
  | succ n ih =>
    intro l hl b
    cases l with
    | nil => cases b <;> rfl
    | cons c cs =>
      have hcs : cs.length ≤ n := by
        simp only [List.length_cons] at hl
        omega
      have htl : cs.tail.length ≤ n := by
        have := List.length_tail cs
        omega
      cases b
      · rw [List.map_cons, stripLineAux_false_cons, stripLineAux_false_cons]
        by_cases h : c = '-' ∧ cs.head? = some '-'
        · have hpos : upChar c = '-' ∧ (List.map upChar cs).head? = some '-' := by
            refine ⟨(upChar_eq_iff_lt65 (by decide)).mpr h.1, ?_⟩
            rw [List.head?_map, h.2]
            rfl
          rw [if_pos hpos, if_pos h, ← List.map_tail]
          exact ih cs.tail htl true
        · have hneg : ¬(upChar c = '-' ∧ (List.map upChar cs).head? = some '-') := by
            rintro ⟨h1, h2⟩
            apply h
            refine ⟨(upChar_eq_iff_lt65 (by decide)).mp h1, ?_⟩
            rw [List.head?_map] at h2
            cases hcs' : cs.head? with
            | none =>
              rw [hcs'] at h2
              cases h2
            | some d =>
              rw [hcs'] at h2
              have hd : upChar d = '-' := by simpa using h2
              exact congrArg some ((upChar_eq_iff_lt65 (by decide)).mp hd)
          rw [if_neg hneg, if_neg h, List.map_cons, ih cs hcs false]
      · rw [List.map_cons, stripLineAux_true_cons, stripLineAux_true_cons]
        by_cases h : c = '\n'
        · rw [if_pos ((upChar_eq_iff_lt65 (by decide)).mpr h), if_pos h,
            List.map_cons, show upChar '\n' = '\n' from by decide, ih cs hcs false]
        · rw [if_neg (fun hc => h ((upChar_eq_iff_lt65 (by decide)).mp hc)),
            if_neg h]
          exact ih cs hcs true

theorem stripBlockAux_map_upChar :
    ∀ (n : Nat) (l : List Char), l.length ≤ n → ∀ (st : Option (List Char)),
      stripBlockAux (st.map (List.map upChar)) (l.map upChar)
        = (stripBlockAux st l).map upChar := by
  intro n
  induction n with
  | zero =>
    intro l hl st
    have hn : l = [] := List.length_eq_zero.mp (Nat.le_zero.mp hl)
    subst hn
    cases st with
    | none => rfl
    | some buf =>
      show stripBlockAux (some (buf.map upChar)) [] = _
      simp [stripBlockAux, List.map_reverse,
        show upChar '/' = '/' from by decide, show upChar '*' = '*' from by decide]
  | succ n ih =>
    intro l hl st
    cases l with
    | nil =>
      cases st with
      | none => rfl
      | some buf =>
        show stripBlockAux (some (buf.map upChar)) [] = _
        simp [stripBlockAux, List.map_reverse,
          show upChar '/' = '/' from by decide, show upChar '*' = '*' from by decide]
    | cons c cs =>
      have hcs : cs.length ≤ n := by
        simp only [List.length_cons] at hl
        omega
      have htl : cs.tail.length ≤ n := by
        have := List.length_tail cs
        omega
      cases st with
      | none =>
        show stripBlockAux none (upChar c :: cs.map upChar) = _
        rw [stripBlockAux_none_cons, stripBlockAux_none_cons]
        by_cases h : c = '/' ∧ cs.head? = some '*'
        · have hpos : upChar c = '/' ∧ (List.map upChar cs).head? = some '*' := by
            refine ⟨(upChar_eq_iff_lt65 (by decide)).mpr h.1, ?_⟩
            rw [List.head?_map, h.2]
            rfl
          rw [if_pos hpos, if_pos h, ← List.map_tail]
          exact ih cs.tail htl (some [])
        · have hneg : ¬(upChar c = '/' ∧ (List.map upChar cs).head? = some '*') := by
            rintro ⟨h1, h2⟩
            apply h
            refine ⟨(upChar_eq_iff_lt65 (by decide)).mp h1, ?_⟩
            rw [List.head?_map] at h2
            cases hcs' : cs.head? with
            | none =>
              rw [hcs'] at h2
              cases h2
            | some d =>
              rw [hcs'] at h2
              have hd : upChar d = '*' := by simpa using h2
              exact congrArg some ((upChar_eq_iff_lt65 (by decide)).mp hd)
          rw [if_neg hneg, if_neg h, List.map_cons]
          have hrec : stripBlockAux none (List.map upChar cs)
              = List.map upChar (stripBlockAux none cs) := ih cs hcs none
          rw [hrec]
      | some buf =>
        show stripBlockAux (some (buf.map upChar)) (upChar c :: cs.map upChar) = _
        rw [stripBlockAux_some_cons, stripBlockAux_some_cons]
        by_cases h : c = '*' ∧ cs.head? = some '/'
        · have hpos : upChar c = '*' ∧ (List.map upChar cs).head? = some '/' := by
            refine ⟨(upChar_eq_iff_lt65 (by decide)).mpr h.1, ?_⟩
            rw [List.head?_map, h.2]
            rfl
          rw [if_pos hpos, if_pos h, ← List.map_tail]
          exact ih cs.tail htl none
        · have hneg : ¬(upChar c = '*' ∧ (List.map upChar cs).head? = some '/') := by
            rintro ⟨h1, h2⟩
            apply h
            refine ⟨(upChar_eq_iff_lt65 (by decide)).mp h1, ?_⟩
            rw [List.head?_map] at h2
            cases hcs' : cs.head? with
            | none =>
              rw [hcs'] at h2
              cases h2
            | some d =>
              rw [hcs'] at h2
              have hd : upChar d = '/' := by simpa using h2
              exact congrArg some ((upChar_eq_iff_lt65 (by decide)).mp hd)
          rw [if_neg hneg, if_neg h]
          exact ih cs hcs (some (c :: buf))

theorem collapseWs_map_upChar : ∀ (l : List Char),
    collapseWs (l.map upChar) = (collapseWs l).map upChar := by
  intro l
  induction l with
  | nil => rfl
  | cons c cs ih =>
    cases cs with
    | nil =>
      show collapseWs [upChar c] = (collapseWs [c]).map upChar
      simp only [collapseWs, isWsChar_upChar]
      by_cases h : isWsChar c
      · simp [h, show upChar ' ' = ' ' from by decide]
      · simp [h]
    | cons d cs' =>
      show collapseWs (upChar c :: upChar d :: cs'.map upChar)
        = (collapseWs (c :: d :: cs')).map upChar
      simp only [collapseWs, isWsChar_upChar]
      by_cases h : isWsChar c && isWsChar d
      · rw [if_pos h, if_pos h, ← List.map_cons]
        exact ih
      · rw [if_neg h, if_neg h, List.map_cons, ← List.map_cons, ih]
        by_cases h2 : isWsChar c
        · simp [h2, show upChar ' ' = ' ' from by decide]
        · simp [h2]

theorem squeezeAux_map_upChar : ∀ (l : List Char) (b : Bool) (buf : List Char),
    squeezeAux b (buf.map upChar) (l.map upChar)
      = (squeezeAux b buf l).map upChar := by
  intro l
  induction l with
  | nil =>
    intro b buf
    show squeezeAux b (buf.map upChar) [] = (squeezeAux b buf []).map upChar
    simp only [squeezeAux]
    cases b
    · simp [List.map_reverse]
    · simp
  | cons c cs ih =>
    intro b buf
    show squeezeAux b (buf.map upChar) (upChar c :: cs.map upChar)
      = (squeezeAux b buf (c :: cs)).map upChar
    simp only [squeezeAux, isWsChar_upChar, isDelimChar_upChar]
    by_cases h1 : isWsChar c
    · rw [if_pos h1, if_pos h1, ← List.map_cons]
      exact ih b (c :: buf)
    · rw [if_neg h1, if_neg h1]
      have hrecT : squeezeAux true ([] : List Char) (List.map upChar cs)
          = List.map upChar (squeezeAux true [] cs) := ih true []
      have hrecF : squeezeAux false ([] : List Char) (List.map upChar cs)
          = List.map upChar (squeezeAux false [] cs) := ih false []
      by_cases h2 : isDelimChar c
      · rw [if_pos h2, if_pos h2, List.map_cons, hrecT]
      · rw [if_neg h2, if_neg h2]
        cases b
        · simp only [Bool.false_eq_true, if_false]
          rw [List.map_append, List.map_reverse, List.map_cons, hrecF]
        · simp only [if_true]
          rw [List.map_cons, hrecF]

theorem trimWs_map_upChar (l : List Char) :
    trimWs (l.map upChar) = (trimWs l).map upChar := by
  unfold trimWs
  have hfun : (isWsChar ∘ upChar) = isWsChar := by
    funext c
    exact isWsChar_upChar c
  rw [List.dropWhile_map, hfun, ← List.map_reverse, List.dropWhile_map, hfun,
    ← List.map_reverse]

theorem normalizeChars_map_upChar (l : List Char) :
    normalizeChars (l.map upChar) = normalizeChars l := by
  have c1 : stripLineComments (l.map upChar)
      = (stripLineComments l).map upChar :=
    stripLineAux_map_upChar l.length l le_rfl false
  have c2 : ∀ (x : List Char), stripBlockComments (x.map upChar)
      = (stripBlockComments x).map upChar :=
    fun x => stripBlockAux_map_upChar x.length x le_rfl none
  have c4 : ∀ (x : List Char), squeezeDelims (x.map upChar)
      = (squeezeDelims x).map upChar :=
    fun x => squeezeAux_map_upChar x false []
  unfold normalizeChars
  rw [show stripLineComments (List.map upChar l)
      = (stripLineComments l).map upChar from c1,
    c2, collapseWs_map_upChar, c4, trimWs_map_upChar, List.map_map,
    show upChar ∘ upChar = upChar from funext upChar_upChar]

/-- C9 (amended): the invariances the normalizer actually provides.
(i) For texts untouched by both comment passes, the hash depends only on the
whitespace-collapsed form — whitespace edits inside existing runs cannot
change it (whereas creating or deleting a run, e.g. `"ab"` vs `"a b"`, does
change it).  (ii) Appending a closed `/* ... */` block comment to `--`-free,
`/*`-free text leaves the hash unchanged.  (iii) Appending a newline-free
`-- ...` line comment leaves the hash unchanged.  (iv) The hash is invariant
under ASCII case changes: texts equal after upper-casing hash identically. -/
theorem hash_invariances :
    (∀ s t : String,
      stripLineComments s.data = s.data → stripBlockComments s.data = s.data →
      stripLineComments t.data = t.data → stripBlockComments t.data = t.data →
      collapseWs s.data = collapseWs t.data →
      generateHash s = generateHash t)
    ∧ (∀ x body : List Char,
      listContainsSub ['-', '-'] (x ++ ['/', '*'] ++ body ++ ['*', '/']) = false →
      listContainsSub ['/', '*'] x = false →
      listContainsSub ['*', '/'] body = false →
      generateHash ⟨x ++ ['/', '*'] ++ body ++ ['*', '/']⟩ = generateHash ⟨x⟩)
    ∧ (∀ x body : List Char,
      listContainsSub ['-', '-'] (x ++ ['-']) = false →
      '\n' ∉ body →
      generateHash ⟨x ++ ['-', '-'] ++ body⟩ = generateHash ⟨x⟩)
    ∧ (∀ s t : String, s.data.map upChar = t.data.map upChar →
      generateHash s = generateHash t) := by
  refine ⟨?_, ?_, ?_, ?_⟩
  · intro s t h1 h2 h3 h4 h5
    show (⟨normalizeChars s.data⟩ : String) = ⟨normalizeChars t.data⟩
    unfold normalizeChars
    rw [h1, h2, h3, h4, h5]
  · intro x body h1 h2 h3
    have hx_dd : listContainsSub ['-', '-'] x = false := by
      rcases Bool.eq_false_or_eq_true (listContainsSub ['-', '-'] x) with hb | hb
      · have := listContainsSub_append_left hb (['/', '*'] ++ body ++ ['*', '/'])
        rw [← List.append_assoc, ← List.append_assoc] at this
        rw [this] at h1
        cases h1
      · exact hb
    show (⟨normalizeChars (x ++ ['/', '*'] ++ body ++ ['*', '/'])⟩ : String)
      = ⟨normalizeChars x⟩
    have hshape : x ++ ['/', '*'] ++ body ++ ['*', '/']
        = x ++ '/' :: '*' :: (body ++ '*' :: '/' :: []) := by simp
    rw [hshape] at h1
    rw [hshape]
    unfold normalizeChars stripLineComments stripBlockComments
    rw [stripLineAux_id h1, stripLineAux_id hx_dd,
      stripBlockAux_comment_append h2 h3 [], stripBlockAux_id h2,
      show stripBlockAux none [] = ([] : List Char) from rfl, List.append_nil]
  · intro x body h1 hnl
    have hx_dd : listContainsSub ['-', '-'] x = false := by
      rcases Bool.eq_false_or_eq_true (listContainsSub ['-', '-'] x) with hb | hb
      · have := listContainsSub_append_left hb ['-']
        rw [this] at h1
        cases h1
      · exact hb
    show (⟨normalizeChars (x ++ ['-', '-'] ++ body)⟩ : String)
      = ⟨normalizeChars x⟩
    have hshape : x ++ ['-', '-'] ++ body = x ++ '-' :: '-' :: body := by simp
    rw [hshape]
    unfold normalizeChars stripLineComments
    rw [stripLineAux_comment_append h1 hnl, stripLineAux_id hx_dd]
  · intro s t h
    show (⟨normalizeChars s.data⟩ : String) = ⟨normalizeChars t.data⟩
    rw [← normalizeChars_map_upChar s.data, ← normalizeChars_map_upChar t.data, h]

/-- Concrete instances of the four hash invariances. -/
theorem hash_invariances_witness :
    (collapseWs ("a  b").data = collapseWs ("a\nb").data
      ∧ generateHash "a  b" = generateHash "a\nb")
    ∧ (listContainsSub ['/', '*'] ['a'] = false
      ∧ generateHash ⟨['a', '/', '*', 'x', '*', '/']⟩ = generateHash ⟨['a']⟩)
    ∧ (listContainsSub ['-', '-'] ['a', '-'] = false
      ∧ generateHash ⟨['a', '-', '-', 'x']⟩ = generateHash ⟨['a']⟩)
    ∧ ("select".data.map upChar = "SELECT".data.map upChar
      ∧ generateHash "select" = generateHash "SELECT") := by
  refine ⟨⟨by decide, ?_⟩, ⟨by decide, ?_⟩, ⟨by decide, ?_⟩, ⟨by decide, ?_⟩⟩
  · exact hash_invariances.1 "a  b" "a\nb" (by decide) (by decide) (by decide)
      (by decide) (by decide)
  · exact hash_invariances.2.1 ['a'] ['x'] (by decide) (by decide) (by decide)
  · exact hash_invariances.2.2.1 ['a'] ['x'] (by decide) (by decide)
  · exact hash_invariances.2.2.2 "select" "SELECT" (by decide)

/-! ## C1: the diff walk refines the spec's tuple-keyed description

The engine keys its maps by the string `f"{query_type.value}:{qualified_name}"`
and sorts keys as strings; the spec speaks of `(queryType, qualifiedName)`
tuples ordered lexicographically.  The definitions below transcribe the spec's
words (tuple keys, tuple-lexicographic iteration, same per-key synthesizers);
the refinement theorem proves the two walks agree on every input, because
`':'` is strictly smaller than every character of every stage value. -/

/-- Spec C1: the key tuple `(queryType, qualifiedName)`. -/
abbrev SpecKey := BuildStage × String

/-- Spec C1: lexicographic order on the key tuple. -/
def specKeyLt (a b : SpecKey) : Bool :=
  strLt a.1.value b.1.value || (a.1.value == b.1.value && strLt a.2 b.2)

def specDictInsert :
    List (SpecKey × ASTObject) → SpecKey → ASTObject → List (SpecKey × ASTObject)
  | [], k, v => [(k, v)]
  | (k', v') :: rest, k, v =>
    if k' = k then (k', v) :: rest else (k', v') :: specDictInsert rest k v

def specDictGet : List (SpecKey × ASTObject) → SpecKey → Option ASTObject
  | [], _ => none
  | (k', v) :: rest, k => if k' = k then some v else specDictGet rest k

def specDictKeys (m : List (SpecKey × ASTObject)) : List SpecKey := m.map (·.1)

/-- Spec C1: the last-write-wins tuple-keyed map of a collection. -/
def specBuildMap (objs : List ASTObject) : List (SpecKey × ASTObject) :=
  objs.foldl (fun m o => specDictInsert m (o.query_type, o.qualified_name) o) []

def specInsertSorted (x : SpecKey) : List SpecKey → List SpecKey
  | [] => [x]
  | y :: ys => if specKeyLt y x then y :: specInsertSorted x ys else x :: y :: ys

def specSortKeys : List SpecKey → List SpecKey
  | [] => []
  | x :: xs => specInsertSorted x (specSortKeys xs)

def specDedupAux (seen : List SpecKey) : List SpecKey → List SpecKey
  | [] => []
  | x :: xs =>
    if x ∈ seen then specDedupAux seen xs else x :: specDedupAux (x :: seen) xs

def specDedup (l : List SpecKey) : List SpecKey := specDedupAux [] l

/-- Spec C1 (§4.2, written from the spec's words): build tuple-keyed maps of
base and updated, iterate the deduplicated key union in lexicographic tuple
order, and per key emit the create / drop / alter / nothing synthesis. -/
def diffSpecC1 (base updated : List ASTObject) : Except PyError (List ASTObject) :=
  let base_map := specBuildMap base
  let updated_map := specBuildMap updated
  let all_keys := specSortKeys (specDedup
    (specDictKeys base_map ++ specDictKeys updated_map))
  all_keys.foldlM (fun migration_commands key =>
    match specDictGet base_map key, specDictGet updated_map key with
    | none, some obj => pure (migration_commands ++ [obj])
    | some obj, none => do
      let drop_command ← generate_drop_command obj
      pure (migration_commands ++ drop_command.toList)
    | some old_obj, some new_obj =>
      if old_obj.query_hash ≠ new_obj.query_hash then do
        let alter_commands ← generate_alter_commands old_obj new_obj
        pure (migration_commands ++ alter_commands)
      else pure migration_commands
    | none, none => pure migration_commands) []

/-- The engine's string encoding of a key tuple. -/
def encKey (p : SpecKey) : String := p.1.value ++ ":" ++ p.2

theorem make_key_encKey (o : ASTObject) :
    make_key o = encKey (o.query_type, o.qualified_name) := rfl

/-- Every stage value is made of characters strictly above `':'` (code 58). -/
theorem BuildStage_value_chars :
    ∀ t : BuildStage, ∀ c ∈ t.value.data, 58 < c.toNat := by
  intro t
  cases t <;> decide

theorem BuildStage_value_inj :
    ∀ t t' : BuildStage, t.value = t'.value → t = t' := by
  intro t t'
  cases t <;> cases t' <;> decide

/-- Splitting a `':'`-separated concatenation is unambiguous when the prefixes
avoid `':'`. -/
theorem sep_split_inj :
    ∀ (a b x y : List Char), (∀ c ∈ a, 58 < c.toNat) → (∀ c ∈ b, 58 < c.toNat) →
      a ++ ':' :: x = b ++ ':' :: y → a = b ∧ x = y := by
  intro a
  induction a with
  | nil =>
    intro b x y _ hb h
    cases b with
    | nil =>
      simp only [List.nil_append] at h
      exact ⟨rfl, (List.cons.inj h).2⟩
    | cons d ds =>
      simp only [List.nil_append, List.cons_append] at h
      have hd := (List.cons.inj h).1
      have := hb d (List.mem_cons_self _ _)
      rw [← hd] at this
      simp at this
  | cons c cs ih =>
    intro b x y ha hb h
    cases b with
    | nil =>
      simp only [List.cons_append, List.nil_append] at h
      have hc := (List.cons.inj h).1
      have := ha c (List.mem_cons_self _ _)
      rw [hc] at this
      simp at this
    | cons d ds =>
      simp only [List.cons_append] at h
      have hcd := (List.cons.inj h).1
      have htail := (List.cons.inj h).2
      obtain ⟨h1, h2⟩ := ih ds x y
        (fun e he => ha e (List.mem_cons_of_mem _ he))
        (fun e he => hb e (List.mem_cons_of_mem _ he)) htail
      exact ⟨by rw [hcd, h1], h2⟩

theorem encKey_data (p : SpecKey) :
    (encKey p).data = p.1.value.data ++ ':' :: p.2.data := by
  show (p.1.value.data ++ [':']) ++ p.2.data = _
  rw [List.append_assoc]
  rfl

theorem encKey_inj {p q : SpecKey} (h : encKey p = encKey q) : p = q := by
  have hdata0 : (encKey p).data = (encKey q).data := congrArg String.data h
  rw [encKey_data, encKey_data] at hdata0
  have hdata : p.1.value.data ++ ':' :: p.2.data
      = q.1.value.data ++ ':' :: q.2.data := hdata0
  obtain ⟨h1, h2⟩ := sep_split_inj _ _ _ _
    (BuildStage_value_chars p.1) (BuildStage_value_chars q.1) hdata
  have hstage : p.1 = q.1 := BuildStage_value_inj _ _ (String.ext h1)
  have hname : p.2 = q.2 := String.ext h2
  obtain ⟨p1, p2⟩ := p
  obtain ⟨q1, q2⟩ := q
  simp_all

/-- The engine's string order on encoded keys is exactly the lexicographic
tuple order, because the separator is smaller than every stage-value
character. -/
theorem listCharLt_sep :
    ∀ (a b x y : List Char), (∀ c ∈ a, 58 < c.toNat) → (∀ c ∈ b, 58 < c.toNat) →
      listCharLt (a ++ ':' :: x) (b ++ ':' :: y)
        = (listCharLt a b || (a == b && listCharLt x y)) := by
  intro a
  induction a with
  | nil =>
    intro b x y _ hb
    cases b with
    | nil =>
      show listCharLt (':' :: x) (':' :: y) = _
      simp [listCharLt, charLt]
    | cons d ds =>
      show listCharLt (':' :: x) (d :: (ds ++ ':' :: y)) = _
      have hd := hb d (List.mem_cons_self _ _)
      simp [listCharLt, charLt, hd]
  | cons c cs ih =>
    intro b x y ha hb
    cases b with
    | nil =>
      show listCharLt (c :: (cs ++ ':' :: x)) (':' :: y) = _
      have hc := ha c (List.mem_cons_self _ _)
      simp [listCharLt, charLt]
      omega
    | cons d ds =>
      have hstep : listCharLt ((c :: cs) ++ ':' :: x) ((d :: ds) ++ ':' :: y)
          = if charLt c d then true
            else if charLt d c then false
            else listCharLt (cs ++ ':' :: x) (ds ++ ':' :: y) := rfl
      have hstep2 : listCharLt (c :: cs) (d :: ds)
          = if charLt c d then true else if charLt d c then false
            else listCharLt cs ds := rfl
      rw [hstep, hstep2]
      by_cases h1 : charLt c d
      · rw [if_pos h1, if_pos h1]
        rfl
      · rw [if_neg h1, if_neg h1]
        by_cases h2 : charLt d c
        · rw [if_pos h2, if_pos h2]
          have hcd : c ≠ d := by
            intro he
            subst he
            simp [charLt] at h2
          have hbeq : ((c :: cs : List Char) == d :: ds) = false := by
            refine beq_eq_false_iff_ne.mpr ?_
            intro he
            exact hcd (List.cons.inj he).1
          rw [hbeq]
          rfl
        · rw [if_neg h2, if_neg h2]
          have hcd : c = d := by
            unfold charLt at h1 h2
            simp at h1 h2
            exact char_toNat_inj (by omega)
          subst hcd
          rw [ih ds x y (fun e he => ha e (List.mem_cons_of_mem _ he))
            (fun e he => hb e (List.mem_cons_of_mem _ he))]
          have hbeq : ((c :: cs : List Char) == c :: ds) = (cs == ds) := by
            simp
          rw [hbeq]

theorem strLt_encKey (p q : SpecKey) : strLt (encKey p) (encKey q) = specKeyLt p q := by
  unfold strLt specKeyLt
  rw [encKey_data p, encKey_data q,
    listCharLt_sep _ _ _ _ (BuildStage_value_chars p.1) (BuildStage_value_chars q.1)]
  have hbeq : (p.1.value == q.1.value) = (p.1.value.data == q.1.value.data) := by
    rcases Bool.eq_false_or_eq_true (p.1.value == q.1.value) with hb | hb
    · rw [hb]
      have heq : p.1.value = q.1.value := beq_iff_eq.mp hb
      rw [heq]
      exact (beq_self_eq_true _).symm
    · rw [hb]
      have hne := beq_eq_false_iff_ne.mp hb
      symm
      refine beq_eq_false_iff_ne.mpr ?_
      intro he
      exact hne (String.ext he)
  rw [hbeq]
  rfl

/-- The engine's key/value entries are the encode-image of the spec's. -/
def encEntry (kv : SpecKey × ASTObject) : String × ASTObject := (encKey kv.1, kv.2)

theorem specDictGet_enc (m : List (SpecKey × ASTObject)) (p : SpecKey) :
    dictGetG (m.map encEntry) (encKey p) = specDictGet m p := by
  induction m with
  | nil => rfl
  | cons kv rest ih =>
    obtain ⟨k, v⟩ := kv
    show dictGetG ((encKey k, v) :: rest.map encEntry) (encKey p) = _
    simp only [dictGetG, specDictGet]
    by_cases h : k = p
    · subst h
      rw [if_pos rfl, if_pos rfl]
    · rw [if_neg (fun he => h (encKey_inj he)), if_neg h, ih]

theorem specDictInsert_enc (m : List (SpecKey × ASTObject)) (p : SpecKey)
    (v : ASTObject) :
    (specDictInsert m p v).map encEntry
      = dictInsertG (m.map encEntry) (encKey p) v := by
  induction m with
  | nil => rfl
  | cons kv rest ih =>
    obtain ⟨k, w⟩ := kv
    show _ = dictInsertG ((encKey k, w) :: rest.map encEntry) (encKey p) v
    simp only [specDictInsert, dictInsertG]
    by_cases h : k = p
    · subst h
      rw [if_pos rfl, if_pos rfl]
      rfl
    · rw [if_neg h, if_neg (fun he => h (encKey_inj he)), List.map_cons, ih]
      rfl

theorem specBuildMap_enc (objs : List ASTObject) :
    buildDict (objs.map fun o => (make_key o, o)) = (specBuildMap objs).map encEntry := by
  unfold buildDict specBuildMap
  suffices hgen : ∀ (l : List ASTObject) (m : List (SpecKey × ASTObject)),
      (l.map fun o => (make_key o, o)).foldl
          (fun m kv => dictInsertG m kv.1 kv.2) (m.map encEntry)
        = (l.foldl (fun m o =>
            specDictInsert m (o.query_type, o.qualified_name) o) m).map encEntry by
    exact hgen objs []
  intro l
  induction l with
  | nil =>
    intro m
    rfl
  | cons o os ih =>
    intro m
    simp only [List.map_cons, List.foldl_cons]
    rw [show dictInsertG (m.map encEntry) (make_key o, o).1 (make_key o, o).2
        = dictInsertG (m.map encEntry) (encKey (o.query_type, o.qualified_name)) o
      from rfl, ← specDictInsert_enc]
    exact ih _

theorem specDictKeys_enc (m : List (SpecKey × ASTObject)) :
    dictKeysG (m.map encEntry) = (specDictKeys m).map encKey := by
  unfold dictKeysG specDictKeys
  rw [List.map_map, List.map_map]
  rfl

theorem mem_map_encKey {x : SpecKey} {l : List SpecKey} :
    encKey x ∈ l.map encKey ↔ x ∈ l := by
  constructor
  · intro h
    obtain ⟨y, hy, he⟩ := List.mem_map.mp h
    rw [← encKey_inj he]
    exact hy
  · exact fun h => List.mem_map_of_mem _ h

theorem specDedupAux_enc :
    ∀ (l seen : List SpecKey),
      dedupAux (seen.map encKey) (l.map encKey) = (specDedupAux seen l).map encKey := by
  intro l
  induction l with
  | nil =>
    intro seen
    rfl
  | cons x xs ih =>
    intro seen
    show dedupAux (seen.map encKey) (encKey x :: xs.map encKey) = _
    simp only [dedupAux, specDedupAux]
    by_cases h : x ∈ seen
    · rw [if_pos (mem_map_encKey.mpr h), if_pos h, ih]
    · rw [if_neg (fun hm => h (mem_map_encKey.mp hm)), if_neg h, List.map_cons]
      have hrec := ih (x :: seen)
      rw [List.map_cons] at hrec
      rw [hrec]

theorem specDedup_enc (l : List SpecKey) :
    dedupStrings (l.map encKey) = (specDedup l).map encKey := by
  have := specDedupAux_enc l []
  simpa [dedupStrings, specDedup] using this

theorem specInsertSorted_enc (x : SpecKey) :
    ∀ (l : List SpecKey),
      insertSortedStr (encKey x) (l.map encKey) = (specInsertSorted x l).map encKey := by
  intro l
  induction l with
  | nil => rfl
  | cons y ys ih =>
    show insertSortedStr (encKey x) (encKey y :: ys.map encKey) = _
    simp only [insertSortedStr, specInsertSorted]
    rw [strLt_encKey]
    by_cases h : specKeyLt y x
    · rw [if_pos h, if_pos h, List.map_cons, ih]
    · rw [if_neg h, if_neg h, List.map_cons, List.map_cons]

theorem specSortKeys_enc :
    ∀ (l : List SpecKey),
      sortStrings (l.map encKey) = (specSortKeys l).map encKey := by
  intro l
  induction l with
  | nil => rfl
  | cons x xs ih =>
    show insertSortedStr (encKey x) (sortStrings (xs.map encKey)) = _
    rw [ih]
    exact specInsertSorted_enc x _

theorem foldlM_map_except {α β γ : Type} (f : α → β)
    (g : γ → β → Except PyError γ) :
    ∀ (l : List α) (init : γ),
      (l.map f).foldlM g init = l.foldlM (fun acc x => g acc (f x)) init := by
  intro l
  induction l with
  | nil =>
    intro init
    rfl
  | cons x xs ih =>
    intro init
    simp only [List.map_cons, List.foldlM_cons]
    cases h : g init (f x) with
    | error e => rfl
    | ok a => exact ih a

theorem foldlM_congr_except {α γ : Type} (f g : γ → α → Except PyError γ) :
    ∀ (l : List α), (∀ acc x, x ∈ l → f acc x = g acc x) →
      ∀ init, l.foldlM f init = l.foldlM g init := by
  intro l
  induction l with
  | nil =>
    intro _ init
    rfl
  | cons x xs ih =>
    intro h init
    simp only [List.foldlM_cons]
    rw [h init x (List.mem_cons_self _ _)]
    cases hr : g init x with
    | error e => rfl
    | ok a => exact ih (fun acc y hy => h acc y (List.mem_cons_of_mem _ hy)) a

/-- A grant whose object name decodes to no `on`/`to` structure: the drop
synthesis for it raises `IndexError` out of the whole diff. -/
def grantCrashC1 : ASTObject :=
  mkObj "GRANT SELECT ON users TO app;" "users" .grant ["users"] ""

/-- C1, counterexample: for a grant present only in base, the claimed per-key
behavior ("emits a synthesized type-specific drop/revoke action" and the walk
continues) fails — the grant drop synthesis raises an uncaught `IndexError`
and the whole diff aborts with no action list at all. -/
theorem diff_crash_counterexample :
    diff_schemas [grantCrashC1] [] = .error .indexError := rfl

/-- C1 (amended): the diff walk is exactly the spec's tuple-keyed
description.  `diff_schemas` keys its maps by the string
`"{query_type.value}:{qualified_name}"` and iterates the deduplicated key
union in ascending string order; because `':'` is strictly below every
character of every stage value, that string order coincides with lexicographic
order on the `(queryType, qualifiedName)` tuple, and the per-key dispatch
(only-updated → the updated action unchanged, only-base → the type-specific
drop synthesis, which for grants may abort the diff with `IndexError`,
both-with-differing-hash → the type-specific differ, both-equal → nothing)
agrees key for key: on every input the engine's walk and the tuple-keyed spec
walk return the same result. -/
theorem diff_schemas_eq_spec (base updated : List ASTObject) :
    diff_schemas base updated = diffSpecC1 base updated := by
  unfold diff_schemas diffSpecC1
  dsimp only
  rw [specBuildMap_enc base, specBuildMap_enc updated, specDictKeys_enc,
    specDictKeys_enc, ← List.map_append, specDedup_enc, specSortKeys_enc,
    foldlM_map_except]
  apply foldlM_congr_except _ _ _ ?_ []
  intro acc p _
  rw [specDictGet_enc, specDictGet_enc]

end PgCompose
